import Mathlib

/-!
# Verification of the Solidity front-end (lexer, statement parser, parse driver)

Shallow embedding of the in-scope source files:
* `src/crates/parse/src/lexer/mod.rs` (cooked lexer),
* `src/crates/parse/src/parser/stmt.rs` (statement parser),
* `src/crates/sema/src/lib.rs` (parse driver).

The raw cursor (`lexer/cursor.rs`), the token/keyword definitions of the AST
crate, and the expression/item sub-parsers are external to the provided
sources; where a claim needs them they are modelled from the specification
(each such definition's doc comment says so explicitly).

Machine integers are modelled as `Nat` (byte positions never overflow on the
inputs considered), interned symbols as `String`, `Arc` file handles as `Nat`
identities (pointer equality becomes `Nat` equality), and vectors as `List`s
(or as functions `Nat → α` together with an explicit length where the source
mutates through indices).
-/

namespace Solar

/-! ## Parse driver: `Sources` (`crates/sema/src/lib.rs`) -/

/-- `hir::Source`, as used by the driver: the `Arc<SourceFile>` handle is
modelled by its identity (a `Nat`), `ast` by an `Option Unit` (only presence
matters to the driver logic), `imports` is the ordered `(item-id, source-id)`
sequence. -/
structure Source where
  file : Nat
  ast : Option Unit := none
  imports : List (Nat × Nat) := []
  deriving Repr, DecidableEq

/-- `Source::new(file)`: a fresh unparsed source. -/
def Source.new (file : Nat) : Source := { file := file }

/-- The driver's source vector (`Sources.sources`), addressed by dense ids. -/
abbrev Sources := List Source

/-- `Sources::add_file`: if a source with an identity-equal file handle is
present, return its id and leave the vector unchanged; otherwise push a new
unparsed source and return its id.  `IndexVec::push` returns the index of the
new element. -/
def addFile (sources : Sources) (file : Nat) : Nat × Sources :=
  match sources.findIdx? (fun s => s.file == file) with
  | some id => (id, sources)
  | none => (sources.length, sources ++ [Source.new file])

/-- `Sources::add_import`: resolve the imported file to an id via `add_file`,
then push `(item_id, id)` onto the importing source's `imports`. -/
def addImport (sources : Sources) (current : Nat) (importItemId : Nat) (file : Nat) :
    Sources :=
  let (importId, sources') := addFile sources file
  sources'.modify (fun s => { s with imports := s.imports ++ [(importItemId, importId)] })
    current

/-- Setting `sources[current].ast = ast` at the end of a `parse_sequential`
iteration (or by a parallel worker). -/
def setAst (sources : Sources) (current : Nat) : Sources :=
  sources.modify (fun s => { s with ast := some () }) current

/-- The states of the driver's source vector reachable through its mutating
operations: it starts empty, and grows only through `add_file` (directly for
root files, or through `add_import` during import resolution); parsing itself
only fills the `ast` slots. -/
inductive Reachable : Sources → Prop where
  | empty : Reachable []
  | addFile {s} (file : Nat) : Reachable s → Reachable (addFile s file).2
  | addImport {s} (current importItemId file : Nat) :
      Reachable s → Reachable (addImport s current importItemId file)
  | setAst {s} (current : Nat) : Reachable s → Reachable (setAst s current)

/-- The file identities of a source vector. -/
def files (sources : Sources) : List Nat := sources.map (·.file)

theorem findIdx?_file_files (sources : Sources) (file : Nat) :
    sources.findIdx? (fun s => s.file == file) = (files sources).findIdx? (fun x => x == file) := by
  show _ = List.findIdx? (fun x => x == file) (sources.map Source.file)
  rw [List.findIdx?_map]
  rfl

theorem findIdx?_file_eq_none {sources : Sources} {file : Nat}
    (h : sources.findIdx? (fun s => s.file == file) = none) : file ∉ files sources := by
  rw [findIdx?_file_files, List.findIdx?_eq_none_iff] at h
  intro hmem
  simpa using h file hmem

theorem files_modify (sources : Sources) (n : Nat) (g : Source → Source)
    (hg : ∀ s, (g s).file = s.file) : files (sources.modify g n) = files sources := by
  induction sources generalizing n with
  | nil => simp [files]
  | cons s rest ih =>
    cases n with
    | zero =>
      show files (g s :: rest) = _
      simp [files, hg]
    | succ n =>
      show files (s :: rest.modify g n) = _
      simpa [files] using ih n

instance : Inhabited Source := ⟨Source.new 0⟩

/-! ### `Sources::topo_sort` (`crates/sema/src/lib.rs`)

`topo_order` recurses through the import graph, guarded by the `seen` set.
The Rust recursion terminates because `seen` strictly grows; the embedding
makes the same recursion structural with a fuel parameter, and `topoSort`
supplies `len + (total number of import edges) + 1` fuel, which bounds the
depth of the source's recursion on every input (each recursion level inserts
a distinct id into `seen`, and every visited id is a root or occurs in some
`imports` list). -/

/-- The import source-ids of source `id` (`self.sources[id].imports`, second
components). -/
def importsOf (sources : Sources) (id : Nat) : List Nat :=
  match sources.get? id with
  | some s => s.imports.map (·.2)
  | none => []

/-- `Sources::topo_order`: depth-first post-order.  State is
`(order, seen)`; an id already in `seen` is skipped, otherwise it is marked
seen, its imports are visited left-to-right, and it is pushed onto `order`. -/
def topoVisit (imp : Nat → List Nat) : Nat → Nat → List Nat × List Nat → List Nat × List Nat
  | 0, _, st => st
  | fuel + 1, id, (order, seen) =>
    if id ∈ seen then (order, seen)
    else
      let st := (imp id).foldl (fun st j => topoVisit imp fuel j st) (order, id :: seen)
      (st.1 ++ [id], st.2)

/-- `sort_by_indices` (adapted from a cycle-leader permutation): the vectors
`data` and `indices` are modelled as functions out of `Nat` together with the
length `n`; the inner cycle-following loop is structurally recursive on a
fuel of `n + 1` (each iteration finalizes one index, and there are at most
`n`). -/
def sbInner (dataF : Nat → Source) (idxF : Nat → Nat) (current : Nat) :
    Nat → (Nat → Source) × (Nat → Nat)
  | 0 => (dataF, idxF)
  | fuel + 1 =>
    let target := idxF current
    let idxF' := Function.update idxF current current
    if idxF' target = target then (dataF, idxF')
    else
      let dc := dataF current
      let dt := dataF target
      let dataF' := Function.update (Function.update dataF current dt) target dc
      sbInner dataF' idxF' target fuel

/-- The outer loop of `sort_by_indices`: `for idx in data.indices()`. -/
def sbOuter (n : Nat) : List Nat → (Nat → Source) × (Nat → Nat) → (Nat → Source) × (Nat → Nat)
  | [], st => st
  | idx :: rest, (dataF, idxF) =>
    if idxF idx ≠ idx then sbOuter n rest (sbInner dataF idxF idx (n + 1))
    else sbOuter n rest (dataF, idxF)

/-- `sort_by_indices(data, indices)`: rearranges `data` so that
`data'[i] = data[indices[i]]`.  The `assert_eq!(data.len(), indices.len())`
is modelled by the guard (the claims only exercise the equal-length case). -/
def sortByIndices (data : Sources) (indices : List Nat) : Sources :=
  if data.length = indices.length then
    let n := data.length
    let dataF' := (sbOuter n (List.range n)
      (fun i => data.getD i default, fun i => indices.getD i 0)).1
    (List.range n).map dataF'
  else data

/-- `Sources::topo_sort`: build the DFS post-order starting from every id in
turn, remap every import id to its position in the order
(`order.iter().position(...)`, i.e. `List.indexOf`), then permute the vector
by the order. -/
def topoSort (sources : Sources) : Sources :=
  let len := sources.length
  if len ≤ 1 then sources
  else
    let fuel := len + (sources.map (·.imports.length)).sum + 1
    let order := ((List.range len).foldl
      (fun st id => topoVisit (importsOf sources) fuel id st) ([], [])).1
    let remapped : Sources := sources.map (fun s =>
      { s with imports := s.imports.map (fun p => (p.1, order.indexOf p.2)) })
    sortByIndices remapped order

/-- DFS post-order soundness predicate: every import of the node at
position `k` of `order` already occurs among the first `k` entries. -/
def Done (imp : Nat → List Nat) (order : List Nat) : Prop :=
  ∀ k, k < order.length → ∀ j ∈ imp (order.getD k 0), j ∈ order.take k

theorem done_nil (imp : Nat → List Nat) : Done imp [] := by
  intro k hk
  simp at hk

theorem done_concat {imp : Nat → List Nat} {order : List Nat} {id : Nat}
    (h : Done imp order) (hid : ∀ j ∈ imp id, j ∈ order) : Done imp (order ++ [id]) := by
  intro k hk j hj
  rcases Nat.lt_or_ge k order.length with hlt | hge
  · rw [List.getD_append _ _ _ _ hlt] at hj
    rw [List.take_append_of_le_length (Nat.le_of_lt hlt)]
    exact h k hlt j hj
  · have hk' : k = order.length := by
      simp only [List.length_append, List.length_singleton] at hk
      omega
    subst hk'
    rw [List.getD_append_right _ _ _ _ (Nat.le_refl _), Nat.sub_self] at hj
    rw [List.take_append_of_le_length (Nat.le_refl _), List.take_length]
    exact hid j (by simpa using hj)

theorem nodup_concat {l : List Nat} {a : Nat} (h : l.Nodup) (ha : a ∉ l) :
    (l ++ [a]).Nodup := by
  simp [List.nodup_append, h, ha]

theorem indexOf_lt_of_mem_take {l : List Nat} {j k : Nat} (h : j ∈ l.take k) :
    l.indexOf j < k := by
  induction l generalizing k with
  | nil => simp at h
  | cons a l ih =>
    cases k with
    | zero => simp at h
    | succ k =>
      rw [List.take_succ_cons] at h
      by_cases hja : a = j
      · simp [List.indexOf_cons, hja]
      · have : j ∈ l.take k := by
          rcases List.mem_cons.mp h with h' | h'
          · exact absurd h'.symm hja
          · exact h'
        have hbeq : (a == j) = false := by simpa using hja
        simp only [List.indexOf_cons, hbeq, cond_false]
        exact Nat.succ_lt_succ (ih this)

/-- Correctness of one `topo_order` call, for import graphs admitting a rank
function (`rank` strictly decreases along import edges below `n`): starting
from a sound partial `order` whose `seen` set is `order` together with the
gray (in-progress) ancestors `g`, the call appends a post-order tail in
which every node's imports occur earlier. -/
theorem topoVisit_spec (imp : Nat → List Nat) (n : Nat) (rank : Nat → Nat)
    (Hv : ∀ i, i < n → ∀ j ∈ imp i, j < n)
    (Hr : ∀ i, i < n → ∀ j ∈ imp i, rank j < rank i) :
    ∀ (fuel : Nat) (id : Nat) (order seen g : List Nat),
      id < n → rank id < fuel →
      (∀ x, x ∈ seen ↔ x ∈ order ∨ x ∈ g) →
      Done imp order → order.Nodup → (∀ x ∈ order, x < n) →
      (∀ a ∈ g, rank id ≤ rank a) →
      ∃ tail seen',
        topoVisit imp fuel id (order, seen) = (order ++ tail, seen') ∧
        (id ∈ order ++ tail ∨ id ∈ g) ∧
        (∀ x, x ∈ seen' ↔ x ∈ order ++ tail ∨ x ∈ g) ∧
        Done imp (order ++ tail) ∧ (order ++ tail).Nodup ∧
        (∀ x ∈ order ++ tail, x < n) ∧ (∀ x ∈ tail, x ∉ g) := by
  intro fuel
  induction fuel with
  | zero => intro id order seen g _ hrf; omega
  | succ f ih =>
    intro id order seen g hid hrf hseen hdone hnd hbnd hg
    by_cases hmem : id ∈ seen
    · refine ⟨[], seen, by simp [topoVisit, hmem], ?_, ?_, ?_, ?_, ?_, ?_⟩
      · simpa using (hseen id).mp hmem
      · simpa using hseen
      · simpa using hdone
      · simpa using hnd
      · simpa using hbnd
      · simp
    · have foldlLemma : ∀ (js : List Nat), (∀ j ∈ js, j ∈ imp id) →
          ∀ (order₁ seen₁ : List Nat),
          (∀ x, x ∈ seen₁ ↔ x ∈ order₁ ∨ x ∈ id :: g) →
          Done imp order₁ → order₁.Nodup → (∀ x ∈ order₁, x < n) →
          ∃ tail seen₂,
            js.foldl (fun st j => topoVisit imp f j st) (order₁, seen₁) =
              (order₁ ++ tail, seen₂) ∧
            (∀ x, x ∈ seen₂ ↔ x ∈ order₁ ++ tail ∨ x ∈ id :: g) ∧
            Done imp (order₁ ++ tail) ∧ (order₁ ++ tail).Nodup ∧
            (∀ x ∈ order₁ ++ tail, x < n) ∧ (∀ x ∈ tail, x ∉ id :: g) ∧
            (∀ j ∈ js, j ∈ order₁ ++ tail ∨ j ∈ id :: g) := by
        intro js
        induction js with
        | nil =>
          intro _ order₁ seen₁ hseen₁ hdone₁ hnd₁ hbnd₁
          exact ⟨[], seen₁, by simp, by simpa using hseen₁, by simpa using hdone₁,
            by simpa using hnd₁, by simpa using hbnd₁, by simp, by simp⟩
        | cons j js' ihjs =>
          intro hjs order₁ seen₁ hseen₁ hdone₁ hnd₁ hbnd₁
          have hjimp : j ∈ imp id := hjs j (List.mem_cons_self _ _)
          have hjn : j < n := Hv id hid j hjimp
          have hjr : rank j < rank id := Hr id hid j hjimp
          have hjg : ∀ a ∈ id :: g, rank j ≤ rank a := by
            intro a ha
            rcases List.mem_cons.mp ha with rfl | ha'
            · exact Nat.le_of_lt hjr
            · exact Nat.le_of_lt (Nat.lt_of_lt_of_le hjr (hg a ha'))
          obtain ⟨t₁, s₂, heq₁, hidm₁, hseen₂, hdone₂, hnd₂, hbnd₂, hdisj₁⟩ :=
            ih j order₁ seen₁ (id :: g) hjn (by omega) hseen₁ hdone₁ hnd₁ hbnd₁ hjg
          obtain ⟨t₂, s₃, heq₂, hseen₃, hdone₃, hnd₃, hbnd₃, hdisj₂, hjs₂⟩ :=
            ihjs (fun x hx => hjs x (List.mem_cons_of_mem _ hx)) (order₁ ++ t₁) s₂
              hseen₂ hdone₂ hnd₂ hbnd₂
          refine ⟨t₁ ++ t₂, s₃, ?_, ?_, ?_, ?_, ?_, ?_, ?_⟩
          · rw [List.foldl_cons, heq₁, heq₂, List.append_assoc]
          · intro x
            rw [hseen₃ x, List.append_assoc]
          · rw [← List.append_assoc]; exact hdone₃
          · rw [← List.append_assoc]; exact hnd₃
          · rw [← List.append_assoc]; exact hbnd₃
          · intro x hx
            rcases List.mem_append.mp hx with hx' | hx'
            · exact hdisj₁ x hx'
            · exact hdisj₂ x hx'
          · intro x hx
            rcases List.mem_cons.mp hx with rfl | hx'
            · rcases hidm₁ with h' | h'
              · exact Or.inl (by rw [← List.append_assoc]; exact List.mem_append_left _ h')
              · exact Or.inr h'
            · rw [← List.append_assoc]
              exact hjs₂ x hx'
      obtain ⟨T, s₂, heqF, hseenF, hdoneF, hndF, hbndF, hdisjF, himps⟩ :=
        foldlLemma (imp id) (fun _ h => h) order (id :: seen)
          (by
            intro x
            constructor
            · intro hx
              rcases List.mem_cons.mp hx with rfl | hx'
              · exact Or.inr (List.mem_cons_self _ _)
              · rcases (hseen x).mp hx' with h' | h'
                · exact Or.inl h'
                · exact Or.inr (List.mem_cons_of_mem _ h')
            · intro hx
              rcases hx with h' | h'
              · exact List.mem_cons_of_mem _ ((hseen x).mpr (Or.inl h'))
              · rcases List.mem_cons.mp h' with rfl | h''
                · exact List.mem_cons_self _ _
                · exact List.mem_cons_of_mem _ ((hseen x).mpr (Or.inr h'')))
          hdone hnd hbnd
      have himpord : ∀ j ∈ imp id, j ∈ order ++ T := by
        intro j hj
        rcases himps j hj with h' | h'
        · exact h'
        · exfalso
          rcases List.mem_cons.mp h' with heq | h''
          · rw [heq] at hj
            have := Hr _ hid _ hj
            omega
          · have h1 := Hr _ hid _ hj
            have h2 := hg j h''
            omega
      have hidnot : id ∉ order ++ T := by
        intro hmem'
        rcases List.mem_append.mp hmem' with h' | h'
        · exact hmem ((hseen id).mpr (Or.inl h'))
        · exact hdisjF id h' (List.mem_cons_self _ _)
      refine ⟨T ++ [id], s₂, ?_, ?_, ?_, ?_, ?_, ?_, ?_⟩
      · show topoVisit imp (f + 1) id (order, seen) = _
        rw [topoVisit]
        simp only [hmem, if_false]
        rw [heqF, List.append_assoc]
      · exact Or.inl (by simp)
      · intro x
        rw [hseenF x]
        constructor
        · intro hx
          rcases hx with h' | h'
          · exact Or.inl (by
              rw [← List.append_assoc]
              exact List.mem_append_left _ h')
          · rcases List.mem_cons.mp h' with heq | h''
            · exact Or.inl (by rw [heq]; simp)
            · exact Or.inr h''
        · intro hx
          rcases hx with h' | h'
          · rw [← List.append_assoc] at h'
            rcases List.mem_append.mp h' with h'' | h''
            · exact Or.inl h''
            · exact Or.inr (by
                rw [List.mem_singleton.mp h'']
                exact List.mem_cons_self _ _)
          · exact Or.inr (List.mem_cons_of_mem _ h')
      · rw [← List.append_assoc]
        exact done_concat hdoneF himpord
      · rw [← List.append_assoc]
        exact nodup_concat hndF hidnot
      · intro x hx
        rw [← List.append_assoc] at hx
        rcases List.mem_append.mp hx with h' | h'
        · exact hbndF x h'
        · rw [List.mem_singleton.mp h']
          exact hid
      · intro x hx
        rcases List.mem_append.mp hx with h' | h'
        · exact fun hg' => hdisjF x h' (List.mem_cons_of_mem _ hg')
        · have hx' : x = id := by simpa using h'
          subst hx'
          intro hg'
          exact hmem ((hseen x).mpr (Or.inr hg'))

/-- Correctness of the root loop of `topo_sort` (`for id in
self.sources.indices()`), by iterating `topoVisit_spec` with an empty gray
list. -/
theorem topoRoots_spec (imp : Nat → List Nat) (n : Nat) (rank : Nat → Nat) (F : Nat)
    (Hv : ∀ i, i < n → ∀ j ∈ imp i, j < n)
    (Hr : ∀ i, i < n → ∀ j ∈ imp i, rank j < rank i) :
    ∀ (R : List Nat) (order seen : List Nat),
      (∀ i ∈ R, i < n ∧ rank i < F) →
      (∀ x, x ∈ seen ↔ x ∈ order) → Done imp order → order.Nodup →
      (∀ x ∈ order, x < n) →
      ∃ tail seen',
        R.foldl (fun st id => topoVisit imp F id st) (order, seen) =
          (order ++ tail, seen') ∧
        (∀ x, x ∈ seen' ↔ x ∈ order ++ tail) ∧ Done imp (order ++ tail) ∧
        (order ++ tail).Nodup ∧ (∀ x ∈ order ++ tail, x < n) ∧
        (∀ i ∈ R, i ∈ order ++ tail) := by
  intro R
  induction R with
  | nil =>
    intro order seen _ hseen hdone hnd hbnd
    exact ⟨[], seen, by simp, by simpa using hseen, by simpa using hdone,
      by simpa using hnd, by simpa using hbnd, by simp⟩
  | cons r R' ihR =>
    intro order seen hR hseen hdone hnd hbnd
    have hr := hR r (List.mem_cons_self _ _)
    obtain ⟨t₁, s₂, heq₁, hidm₁, hseen₂, hdone₂, hnd₂, hbnd₂, _⟩ :=
      topoVisit_spec imp n rank Hv Hr F r order seen [] hr.1 hr.2
        (by intro x; simpa using hseen x) hdone hnd hbnd (by simp)
    have hseen₂' : ∀ x, x ∈ s₂ ↔ x ∈ order ++ t₁ := by
      intro x
      simpa using hseen₂ x
    obtain ⟨t₂, s₃, heq₂, hseen₃, hdone₃, hnd₃, hbnd₃, hmem₂⟩ :=
      ihR (order ++ t₁) s₂ (fun i hi => hR i (List.mem_cons_of_mem _ hi)) hseen₂'
        hdone₂ hnd₂ hbnd₂
    refine ⟨t₁ ++ t₂, s₃, ?_, ?_, ?_, ?_, ?_, ?_⟩
    · rw [List.foldl_cons, heq₁, heq₂, List.append_assoc]
    · intro x
      rw [hseen₃ x, List.append_assoc]
    · rw [← List.append_assoc]; exact hdone₃
    · rw [← List.append_assoc]; exact hnd₃
    · rw [← List.append_assoc]; exact hbnd₃
    · intro i hi
      rw [← List.append_assoc]
      rcases List.mem_cons.mp hi with heq | hi'
      · subst heq
        rcases hidm₁ with h' | h'
        · exact List.mem_append_left _ h'
        · simp at h'
      · exact hmem₂ i hi'

/-- Iterates of a self-map of `[0, n)` stay in `[0, n)`. -/
theorem iterate_lt (pf : Nat → Nat) (n : Nat) (hb : ∀ x, x < n → pf x < n)
    {c : Nat} (hc : c < n) : ∀ i, pf^[i] c < n := by
  intro i
  induction i with
  | zero => simpa using hc
  | succ i ih => rw [Function.iterate_succ_apply']; exact hb _ ih

/-- Pigeonhole: `k + 1` pairwise distinct iterates below `n` force
`k + 1 ≤ n`. -/
theorem iterate_distinct_le (pf : Nat → Nat) (n : Nat) (c k : Nat)
    (hbnd : ∀ i, pf^[i] c < n)
    (hdist : ∀ i j, i ≤ k → j ≤ k → pf^[i] c = pf^[j] c → i = j) : k + 1 ≤ n := by
  have hinj : Function.Injective (fun i : Fin (k + 1) => (⟨pf^[i.1] c, hbnd i.1⟩ : Fin n)) := by
    intro i j hij
    have : pf^[i.1] c = pf^[j.1] c := by simpa using congrArg Fin.val hij
    exact Fin.ext (hdist i.1 j.1 (Nat.lt_succ_iff.mp i.2) (Nat.lt_succ_iff.mp j.2) this)
  simpa using Fintype.card_le_of_injective _ hinj

/-- Correctness of the inner (cycle-following) loop of `sort_by_indices`.
The ghost state is the original permutation `pf`, the original data `data₀`,
the set `G` of indices finalized by earlier outer iterations, and the cycle
walked so far: `pf^[0] c₀, …, pf^[k] c₀` with current position `pf^[k] c₀`.
-/
theorem sbInner_spec (n : Nat) (pf : Nat → Nat) (data₀ : Nat → Source) (G : Nat → Prop)
    (hb : ∀ x, x < n → pf x < n)
    (hinj : ∀ x y, x < n → y < n → pf x = pf y → x = y)
    (hGpre : ∀ x, x < n → G (pf x) → G x)
    (c₀ : Nat) (hc₀ : c₀ < n) :
    ∀ (fuel : Nat) (k : Nat) (dataF : Nat → Source) (idxF : Nat → Nat),
      (∀ i j, i ≤ k → j ≤ k → pf^[i] c₀ = pf^[j] c₀ → i = j) →
      (∀ i, i ≤ k → ¬ G (pf^[i] c₀)) →
      pf (pf^[k] c₀) ≠ pf^[k] c₀ →
      n ≤ fuel + k →
      (∀ x, x < n →
        ((G x ∨ ∃ i, i < k ∧ pf^[i] c₀ = x) → idxF x = x) ∧
        (¬(G x ∨ ∃ i, i < k ∧ pf^[i] c₀ = x) → idxF x = pf x)) →
      (∀ x, x < n →
        ((G x ∨ ∃ i, i < k ∧ pf^[i] c₀ = x) → dataF x = data₀ (pf x)) ∧
        (x = pf^[k] c₀ → dataF x = data₀ c₀) ∧
        (¬(G x ∨ ∃ i, i ≤ k ∧ pf^[i] c₀ = x) → dataF x = data₀ x)) →
      ∃ dataF' idxF' m,
        sbInner dataF idxF (pf^[k] c₀) fuel = (dataF', idxF') ∧ k ≤ m ∧
        (∀ x, x < n →
          (G (pf x) ∨ ∃ i, i ≤ m ∧ pf^[i] c₀ = pf x) →
          (G x ∨ ∃ i, i ≤ m ∧ pf^[i] c₀ = x)) ∧
        (∀ x, x < n →
          ((G x ∨ ∃ i, i ≤ m ∧ pf^[i] c₀ = x) → idxF' x = x ∧ dataF' x = data₀ (pf x)) ∧
          (¬(G x ∨ ∃ i, i ≤ m ∧ pf^[i] c₀ = x) → idxF' x = pf x ∧ dataF' x = data₀ x)) := by
  have hpb : ∀ i, pf^[i] c₀ < n := iterate_lt pf n hb hc₀
  intro fuel
  induction fuel with
  | zero =>
    intro k dataF idxF hdist _ _ hfuel _ _
    have := iterate_distinct_le pf n c₀ k hpb hdist
    omega
  | succ f ih =>
    intro k dataF idxF hdist hpath hcur hfuel hidx hdata
    have hkn := iterate_distinct_le pf n c₀ k hpb hdist
    set cur := pf^[k] c₀ with hcurdef
    set target := pf cur with htargetdef
    have hcn : cur < n := hpb k
    have htn : target < n := hb _ hcn
    have hcurNotFix : ¬(G cur ∨ ∃ i, i < k ∧ pf^[i] c₀ = cur) := by
      rintro (hg | ⟨i, hik, hie⟩)
      · exact hpath k (Nat.le_refl _) hg
      · exact absurd (hdist i k (Nat.le_of_lt hik) (Nat.le_refl _) hie) (Nat.ne_of_lt hik)
    have hidxcur : idxF cur = target := (hidx cur hcn).2 hcurNotFix
    -- The break test `idxF' target = target` holds iff `target = c₀`.
    have htc : target ≠ cur := hcur
    -- Step through one iteration of `sbInner`.
    rw [show sbInner dataF idxF cur (f + 1) =
        (if Function.update idxF cur cur (idxF cur) = idxF cur then
          (dataF, Function.update idxF cur cur)
        else
          sbInner
            (Function.update (Function.update dataF cur (dataF (idxF cur))) (idxF cur)
              (dataF cur))
            (Function.update idxF cur cur) (idxF cur) f) from rfl]
    rw [hidxcur]
    have hupd : Function.update idxF cur cur target = idxF target :=
      Function.update_noteq htc _ _
    by_cases hbreak : Function.update idxF cur cur target = target
    · -- Break: the cycle closed, i.e. `target = c₀`.
      rw [if_pos hbreak]
      have htarget_c₀ : target = c₀ := by
        rw [hupd] at hbreak
        by_cases hfix : G target ∨ ∃ i, i < k ∧ pf^[i] c₀ = target
        · rcases hfix with hg | ⟨i, hik, hie⟩
          · exact absurd (hGpre cur hcn (htargetdef ▸ hg)) (hpath k (Nat.le_refl _))
          · cases i with
            | zero => simpa using hie.symm
            | succ i =>
              exfalso
              rw [Function.iterate_succ_apply'] at hie
              have : pf^[i] c₀ = cur :=
                hinj _ _ (hpb i) hcn (by rw [hie])
              have := hdist i k (by omega) (Nat.le_refl _) this
              omega
        · have := (hidx target htn).2 hfix
          rw [this] at hbreak
          exact absurd (hinj _ _ htn hcn hbreak) htc
      refine ⟨dataF, Function.update idxF cur cur, k, rfl, Nat.le_refl _, ?_, ?_⟩
      · -- Preimage closure of `G ∪ path`.
        intro x hx hmem
        rcases hmem with hg | ⟨i, hik, hie⟩
        · exact Or.inl (hGpre x hx hg)
        · cases i with
          | zero =>
            simp only [Function.iterate_zero, id_eq] at hie
            have : pf x = pf cur := by rw [← hie, ← htarget_c₀]
            have := hinj x cur hx hcn this
            exact Or.inr ⟨k, Nat.le_refl _, by rw [this]⟩
          | succ i =>
            rw [Function.iterate_succ_apply'] at hie
            have := hinj _ _ (hpb i) hx hie
            exact Or.inr ⟨i, by omega, this⟩
      · -- Profiles after finalizing `cur`.
        intro x hx
        constructor
        · rintro (hg | ⟨i, hik, hie⟩)
          · have hxc : x ≠ cur := by
              intro he
              rw [he] at hg
              exact hpath k (Nat.le_refl _) hg
            refine ⟨?_, (hdata x hx).1 (Or.inl hg)⟩
            rw [Function.update_noteq hxc]
            exact (hidx x hx).1 (Or.inl hg)
          · by_cases hxc : x = cur
            · constructor
              · rw [hxc]
                exact Function.update_same _ _ _
              · have h1 := (hdata x hx).2.1 hxc
                rw [h1, ← htarget_c₀, htargetdef, hxc]
            · have hilt : i < k := by
                rcases Nat.lt_or_ge i k with h' | h'
                · exact h'
                · exfalso
                  have : i = k := Nat.le_antisymm hik h'
                  exact hxc (by rw [← hie, this])
              refine ⟨?_, (hdata x hx).1 (Or.inr ⟨i, hilt, hie⟩)⟩
              rw [Function.update_noteq hxc]
              exact (hidx x hx).1 (Or.inr ⟨i, hilt, hie⟩)
        · intro hnot
          have hxc : x ≠ cur := fun he => hnot (Or.inr ⟨k, Nat.le_refl _, he.symm⟩)
          have hnot' : ¬(G x ∨ ∃ i, i < k ∧ pf^[i] c₀ = x) := by
            rintro (hg | ⟨i, hik, hie⟩)
            · exact hnot (Or.inl hg)
            · exact hnot (Or.inr ⟨i, Nat.le_of_lt hik, hie⟩)
          refine ⟨?_, (hdata x hx).2.2 hnot⟩
          rw [Function.update_noteq hxc]
          exact (hidx x hx).2 hnot'
    · -- No break: extend the cycle to `target` and recurse.
      rw [if_neg hbreak]
      rw [hupd] at hbreak
      have htNotFix : ¬(G target ∨ ∃ i, i < k ∧ pf^[i] c₀ = target) := by
        intro hfix
        apply hbreak
        rcases hfix with hg | ⟨i, hik, hie⟩
        · exfalso
          exact absurd (hGpre cur hcn (htargetdef ▸ hg)) (hpath k (Nat.le_refl _))
        · exact (hidx target htn).1 (Or.inr ⟨i, hik, hie⟩)
      have hidxt : idxF target = pf target := (hidx target htn).2 htNotFix
      have hpt : pf target ≠ target := by
        intro he
        rw [hidxt] at hbreak
        exact hbreak he
      have htnotpath : ∀ i, i ≤ k → pf^[i] c₀ ≠ target := by
        intro i hik he
        cases i with
        | zero =>
          -- `c₀ = target` would have been caught by the break test (`k ≥ 1`),
          -- or contradicts `pf cur ≠ cur` (`k = 0`).
          simp only [Function.iterate_zero, id_eq] at he
          rcases Nat.eq_zero_or_pos k with hk0 | hkpos
          · subst hk0
            simp only [Function.iterate_zero, id_eq] at hcurdef
            exact htc (by rw [← he, hcurdef])
          · apply hbreak
            rw [← he]
            exact (hidx c₀ hc₀).1 (Or.inr ⟨0, hkpos, rfl⟩)
        | succ i =>
          rw [Function.iterate_succ_apply'] at he
          have : pf^[i] c₀ = cur := hinj _ _ (hpb i) hcn (by rw [he, htargetdef])
          have := hdist i k (by omega) (Nat.le_refl _) this
          omega
      have hdist' : ∀ i j, i ≤ k + 1 → j ≤ k + 1 → pf^[i] c₀ = pf^[j] c₀ → i = j := by
        have hstep : pf^[k+1] c₀ = target := by
          rw [Function.iterate_succ_apply', ← hcurdef, htargetdef]
        intro i j hik hjk hie
        rcases Nat.lt_or_ge i (k + 1) with hi' | hi' <;>
          rcases Nat.lt_or_ge j (k + 1) with hj' | hj'
        · exact hdist i j (by omega) (by omega) hie
        · have hj : j = k + 1 := by omega
          subst hj
          rw [hstep] at hie
          exact absurd hie (htnotpath i (by omega))
        · have hi : i = k + 1 := by omega
          subst hi
          rw [hstep] at hie
          exact absurd hie.symm (htnotpath j (by omega))
        · omega
      have hpath' : ∀ i, i ≤ k + 1 → ¬ G (pf^[i] c₀) := by
        intro i hik
        rcases Nat.lt_or_ge i (k + 1) with hi' | hi'
        · exact hpath i (by omega)
        · have hi : i = k + 1 := by omega
          subst hi
          rw [Function.iterate_succ_apply', ← hcurdef, ← htargetdef]
          intro hg
          exact absurd (hGpre cur hcn (htargetdef ▸ hg)) (hpath k (Nat.le_refl _))
      have hstep : pf^[k+1] c₀ = target := by
        rw [Function.iterate_succ_apply', ← hcurdef, htargetdef]
      obtain ⟨dataF', idxF', m, heq, hkm, hclose, hprof⟩ :=
        ih (k + 1)
          (Function.update (Function.update dataF cur (dataF target)) target (dataF cur))
          (Function.update idxF cur cur)
          hdist' hpath' (by rw [hstep]; exact hpt) (by omega)
          (by
            intro x hx
            constructor
            · rintro (hg | ⟨i, hik, hie⟩)
              · have hxc : x ≠ cur := by
                  intro he
                  rw [he] at hg
                  exact hpath k (Nat.le_refl _) hg
                rw [Function.update_noteq hxc]
                exact (hidx x hx).1 (Or.inl hg)
              · by_cases hxc : x = cur
                · rw [hxc]
                  exact Function.update_same _ _ _
                · have hilt : i < k := by
                    rcases Nat.lt_or_ge i k with h' | h'
                    · exact h'
                    · exfalso
                      have : i = k := by omega
                      exact hxc (by rw [← hie, this])
                  rw [Function.update_noteq hxc]
                  exact (hidx x hx).1 (Or.inr ⟨i, hilt, hie⟩)
            · intro hnot
              have hxc : x ≠ cur := fun he => hnot (Or.inr ⟨k, by omega, he.symm⟩)
              have hnot' : ¬(G x ∨ ∃ i, i < k ∧ pf^[i] c₀ = x) := by
                rintro (hg | ⟨i, hik, hie⟩)
                · exact hnot (Or.inl hg)
                · exact hnot (Or.inr ⟨i, by omega, hie⟩)
              rw [Function.update_noteq hxc]
              exact (hidx x hx).2 hnot')
          (by
            intro x hx
            have hdt : dataF target = data₀ target := by
              refine (hdata target htn).2.2 ?_
              rintro (hg | ⟨i, hik, hie⟩)
              · exact htNotFix (Or.inl hg)
              · exact htnotpath i hik hie
            have hdc : dataF cur = data₀ c₀ := (hdata cur hcn).2.1 rfl
            refine ⟨?_, ?_, ?_⟩
            · rintro (hg | ⟨i, hik, hie⟩)
              · have hxc : x ≠ cur := by
                  intro he
                  rw [he] at hg
                  exact hpath k (Nat.le_refl _) hg
                have hxt : x ≠ target := by
                  intro he
                  rw [he] at hg
                  exact htNotFix (Or.inl hg)
                rw [Function.update_noteq hxt, Function.update_noteq hxc]
                exact (hdata x hx).1 (Or.inl hg)
              · by_cases hxc : x = cur
                · subst hxc
                  rw [Function.update_noteq (Ne.symm htc), Function.update_same]
                  rw [hdt, htargetdef]
                · have hilt : i < k := by
                    rcases Nat.lt_or_ge i k with h' | h'
                    · exact h'
                    · exfalso
                      have : i = k := by omega
                      exact hxc (by rw [← hie, this])
                  have hxt : x ≠ target := fun he => htnotpath i (by omega) (he ▸ hie)
                  rw [Function.update_noteq hxt, Function.update_noteq hxc]
                  exact (hdata x hx).1 (Or.inr ⟨i, hilt, hie⟩)
            · intro hxe
              rw [hstep] at hxe
              subst hxe
              rw [Function.update_same]
              exact hdc
            · intro hnot
              have hxc : x ≠ cur := fun he => hnot (Or.inr ⟨k, by omega, he.symm⟩)
              have hxt : x ≠ target := fun he => hnot (Or.inr ⟨k + 1, by omega, by
                rw [hstep, he]⟩)
              have hnot' : ¬(G x ∨ ∃ i, i ≤ k ∧ pf^[i] c₀ = x) := by
                rintro (hg | ⟨i, hik, hie⟩)
                · exact hnot (Or.inl hg)
                · exact hnot (Or.inr ⟨i, by omega, hie⟩)
              rw [Function.update_noteq hxt, Function.update_noteq hxc]
              exact (hdata x hx).2.2 hnot')
      rw [hstep] at heq
      exact ⟨dataF', idxF', m, heq, by omega, hclose, hprof⟩

/-- Correctness of the outer loop of `sort_by_indices`: after processing the
remaining indices `R`, every processed index `i` is either finalized (in
`G'`, holding `data₀ (pf i)`) or a fixed point of the permutation. -/
theorem sbOuter_spec (n : Nat) (pf : Nat → Nat) (data₀ : Nat → Source)
    (hb : ∀ x, x < n → pf x < n)
    (hinj : ∀ x y, x < n → y < n → pf x = pf y → x = y) :
    ∀ (R : List Nat) (G : Nat → Prop) (dataF : Nat → Source) (idxF : Nat → Nat),
      (∀ i ∈ R, i < n) →
      (∀ x, x < n → G (pf x) → G x) →
      (∀ x, x < n →
        (G x → idxF x = x ∧ dataF x = data₀ (pf x)) ∧
        (¬ G x → idxF x = pf x ∧ dataF x = data₀ x)) →
      ∃ (dataF' : Nat → Source) (idxF' : Nat → Nat) (G' : Nat → Prop),
        sbOuter n R (dataF, idxF) = (dataF', idxF') ∧
        (∀ x, x < n → G' (pf x) → G' x) ∧
        (∀ x, x < n →
          (G' x → idxF' x = x ∧ dataF' x = data₀ (pf x)) ∧
          (¬ G' x → idxF' x = pf x ∧ dataF' x = data₀ x)) ∧
        (∀ i ∈ R, G' i ∨ pf i = i) ∧ (∀ x, G x → G' x) := by
  intro R
  induction R with
  | nil =>
    intro G dataF idxF _ hGpre hprofile
    exact ⟨dataF, idxF, G, rfl, hGpre, hprofile, by simp, fun _ h => h⟩
  | cons r R' ihR =>
    intro G dataF idxF hR hGpre hprofile
    have hrn : r < n := hR r (List.mem_cons_self _ _)
    by_cases henter : idxF r ≠ r
    · have hGr : ¬ G r := fun hg => henter ((hprofile r hrn).1 hg).1
      have hpfr : pf r ≠ r := by
        have := ((hprofile r hrn).2 hGr).1
        rw [this] at henter
        exact henter
      obtain ⟨dataF₁, idxF₁, m, heq, _, hclose₁, hprof₁⟩ :=
        sbInner_spec n pf data₀ G hb hinj hGpre r hrn (n + 1) 0 dataF idxF
          (by intro i j hi hj _; omega)
          (by
            intro i hi
            have h0 : i = 0 := by omega
            rw [h0]
            simpa using hGr)
          (by simpa using hpfr)
          (by omega)
          (by
            intro x hx
            constructor
            · rintro (hg | ⟨i, hik, _⟩)
              · exact ((hprofile x hx).1 hg).1
              · omega
            · intro hnot
              have : ¬ G x := fun hg => hnot (Or.inl hg)
              exact ((hprofile x hx).2 this).1)
          (by
            intro x hx
            refine ⟨?_, ?_, ?_⟩
            · rintro (hg | ⟨i, hik, _⟩)
              · exact ((hprofile x hx).1 hg).2
              · omega
            · intro hxe
              simp only [Function.iterate_zero, id_eq] at hxe
              subst hxe
              exact ((hprofile x hx).2 hGr).2
            · intro hnot
              have hgx : ¬ G x := fun hg => hnot (Or.inl hg)
              exact ((hprofile x hx).2 hgx).2)
      simp only [Function.iterate_zero, id_eq] at heq
      obtain ⟨dataF', idxF', G', heq', hGpre', hprofile', hmem', hsub'⟩ :=
        ihR (fun x => G x ∨ ∃ i, i ≤ m ∧ pf^[i] r = x) dataF₁ idxF₁
          (fun i hi => hR i (List.mem_cons_of_mem _ hi)) hclose₁ hprof₁
      refine ⟨dataF', idxF', G', ?_, hGpre', hprofile', ?_, ?_⟩
      · rw [show sbOuter n (r :: R') (dataF, idxF) =
            (if idxF r ≠ r then sbOuter n R' (sbInner dataF idxF r (n + 1))
            else sbOuter n R' (dataF, idxF)) from rfl]
        rw [if_pos henter, heq, heq']
      · intro i hi
        rcases List.mem_cons.mp hi with heqi | hi'
        · subst heqi
          exact Or.inl (hsub' i (Or.inr ⟨0, Nat.zero_le _, by simp⟩))
        · exact hmem' i hi'
      · exact fun x hg => hsub' x (Or.inl hg)
    · push_neg at henter
      obtain ⟨dataF', idxF', G', heq', hGpre', hprofile', hmem', hsub'⟩ :=
        ihR G dataF idxF (fun i hi => hR i (List.mem_cons_of_mem _ hi)) hGpre hprofile
      refine ⟨dataF', idxF', G', ?_, hGpre', hprofile', ?_, hsub'⟩
      · rw [show sbOuter n (r :: R') (dataF, idxF) =
            (if idxF r ≠ r then sbOuter n R' (sbInner dataF idxF r (n + 1))
            else sbOuter n R' (dataF, idxF)) from rfl]
        rw [if_neg (by simpa using henter), heq']
      · intro i hi
        rcases List.mem_cons.mp hi with heqi | hi'
        · subst heqi
          by_cases hg : G i
          · exact Or.inl (hsub' i hg)
          · have := ((hprofile i hrn).2 hg).1
            rw [this] at henter
            exact Or.inr henter
        · exact hmem' i hi'

/-- Correctness of `sort_by_indices` when `indices` is a permutation of
`[0, data.length)`: the result holds `data[indices[i]]` at position `i`. -/
theorem sortByIndices_spec (data : Sources) (indices : List Nat)
    (hlen : indices.length = data.length)
    (hbnd : ∀ x ∈ indices, x < data.length)
    (hnd : indices.Nodup) :
    (sortByIndices data indices).length = data.length ∧
    ∀ i, i < data.length →
      (sortByIndices data indices).getD i default =
        data.getD (indices.getD i 0) default := by
  set n := data.length with hn
  set pf : Nat → Nat := fun i => indices.getD i 0 with hpf
  set data₀ : Nat → Source := fun i => data.getD i default with hdata₀
  have hb : ∀ x, x < n → pf x < n := by
    intro x hx
    have hx' : x < indices.length := by omega
    rw [hpf]
    simp only
    rw [List.getD_eq_getElem _ _ hx']
    exact hbnd _ (List.getElem_mem hx')
  have hinj : ∀ x y, x < n → y < n → pf x = pf y → x = y := by
    intro x y hx hy he
    have hx' : x < indices.length := by omega
    have hy' : y < indices.length := by omega
    rw [hpf] at he
    simp only at he
    rw [List.getD_eq_getElem _ _ hx', List.getD_eq_getElem _ _ hy'] at he
    exact (List.Nodup.getElem_inj_iff hnd).mp he
  obtain ⟨dataF', idxF', G', heq, _, hprofile', hmem', _⟩ :=
    sbOuter_spec n pf data₀ hb hinj (List.range n) (fun _ => False)
      (fun i => data.getD i default) (fun i => indices.getD i 0)
      (by intro i hi; simpa using hi)
      (by intro x _ h; exact h)
      (by
        intro x hx
        exact ⟨fun h => absurd h (by simp), fun _ => ⟨rfl, rfl⟩⟩)
  have hfinal : ∀ i, i < n → dataF' i = data₀ (pf i) := by
    intro i hi
    rcases hmem' i (List.mem_range.mpr hi) with hg | hfix
    · exact ((hprofile' i hi).1 hg).2
    · by_cases hg : G' i
      · exact ((hprofile' i hi).1 hg).2
      · have := ((hprofile' i hi).2 hg).2
        rw [this, hfix]
  have hresult : sortByIndices data indices =
      (List.range n).map
        (sbOuter n (List.range n)
          (fun i => data.getD i default, fun i => indices.getD i 0)).1 := by
    rw [sortByIndices, if_pos hlen.symm]
  have hproj : (sbOuter n (List.range n)
      (fun i => data.getD i default, fun i => indices.getD i 0)).1 = dataF' := by
    rw [heq]
  rw [hresult, hproj]
  constructor
  · simp [hn]
  · intro i hi
    rw [List.getD_eq_getElem _ _ (by simpa using hi)]
    simp only [List.getElem_map, List.getElem_range]
    exact hfinal i hi

/-- The C2 invariant: every import id is strictly below the importing
source's own id. -/
def importsBelowIndex (sources : Sources) : Prop :=
  ∀ i < sources.length, ∀ p ∈ (sources.getD i default).imports, p.2 < i

instance : DecidablePred importsBelowIndex := fun sources =>
  Nat.decidableBallLT _ _

theorem importsOf_map (sources : Sources) (i : Nat) (hi : i < sources.length) :
    importsOf sources i = (sources.getD i default).imports.map (·.2) := by
  rw [importsOf, List.get?_eq_get hi, List.getD_eq_getElem _ _ hi]
  rfl

theorem importsOf_getElem (sources : Sources) (i : Nat) (hi : i < sources.length) :
    importsOf sources i = (sources[i]).imports.map (·.2) := by
  rw [importsOf, List.get?_eq_get hi]
  rfl

/-- Claim C2, amended to acyclic import graphs: if the import graph admits a
rank function below `n` that strictly decreases along import edges (all of
which stay in range), then after `topo_sort` every id in a source's
`imports` is strictly less than the source's own id. -/
theorem topoSort_imports_below (sources : Sources) (rank : Nat → Nat)
    (hvalid : ∀ i, i < sources.length → ∀ j ∈ importsOf sources i, j < sources.length)
    (hrank : ∀ i, i < sources.length → ∀ j ∈ importsOf sources i, rank j < rank i)
    (hrankb : ∀ i, i < sources.length → rank i < sources.length) :
    importsBelowIndex (topoSort sources) := by
  by_cases hsmall : sources.length ≤ 1
  · have hts : topoSort sources = sources := by
      rw [topoSort, if_pos hsmall]
    rw [importsBelowIndex, hts]
    intro i hi p hp
    have hi0 : i = 0 := by omega
    subst hi0
    have h0 : 0 < sources.length := hi
    have hj : p.2 ∈ importsOf sources 0 := by
      rw [importsOf_map sources 0 h0]
      exact List.mem_map_of_mem _ hp
    have hjn : p.2 < sources.length := hvalid 0 h0 _ hj
    have hj0 : p.2 = 0 := by omega
    rw [hj0] at hj
    exact absurd (hrank 0 h0 0 hj) (lt_irrefl _)
  · obtain ⟨tail, seen', heqO, hseenO, hdoneO, hndO, hbndO, hcomplO⟩ :=
      topoRoots_spec (importsOf sources) sources.length rank
        (sources.length + (sources.map (·.imports.length)).sum + 1) hvalid hrank
        (List.range sources.length) [] []
        (by
          intro i hi
          have hin := List.mem_range.mp hi
          exact ⟨hin, by have := hrankb i hin; omega⟩)
        (by simp) (done_nil _) (by simp) (by simp)
    simp only [List.nil_append] at heqO hseenO hdoneO hndO hbndO hcomplO
    have hlenO : tail.length = sources.length := by
      have hsub1 : tail.toFinset ⊆ Finset.range sources.length := by
        intro x hx
        rw [Finset.mem_range]
        exact hbndO x (List.mem_toFinset.mp hx)
      have hsub2 : Finset.range sources.length ⊆ tail.toFinset := by
        intro x hx
        exact List.mem_toFinset.mpr (hcomplO x (List.mem_range.mpr (Finset.mem_range.mp hx)))
      have hcard : tail.toFinset = Finset.range sources.length :=
        Finset.Subset.antisymm hsub1 hsub2
      rw [← List.toFinset_card_of_nodup hndO, hcard, Finset.card_range]
    have hlenR : (sources.map (fun s =>
        { s with imports := s.imports.map (fun p : Nat × Nat => (p.1, tail.indexOf p.2)) })).length =
        sources.length := List.length_map _ _
    have hts : topoSort sources = sortByIndices
        (sources.map (fun s =>
          { s with imports := s.imports.map (fun p : Nat × Nat => (p.1, tail.indexOf p.2)) }))
        tail := by
      simp only [topoSort]
      rw [if_neg hsmall]
      rw [show ((List.range sources.length).foldl
          (fun st id => topoVisit (importsOf sources)
            (sources.length + (sources.map (·.imports.length)).sum + 1) id st)
          ([], [])).1 = tail from by rw [heqO]]
    obtain ⟨hlenS, hgetS⟩ := sortByIndices_spec
      (sources.map (fun s =>
        { s with imports := s.imports.map (fun p : Nat × Nat => (p.1, tail.indexOf p.2)) }))
      tail (by omega) (fun x hx => by rw [hlenR]; exact hbndO x hx) hndO
    rw [importsBelowIndex, hts]
    intro i hi p hp
    have hi' : i < sources.length := by
      rw [hlenS, hlenR] at hi
      exact hi
    have h2 := hgetS i (by omega)
    have hoidm : tail.getD i 0 ∈ tail := by
      rw [List.getD_eq_getElem _ _ (by omega)]
      exact List.getElem_mem _
    have hoidn : tail.getD i 0 < sources.length := hbndO _ hoidm
    have h3 : ((sources.map (fun s =>
        ({ s with imports := s.imports.map (fun p : Nat × Nat => (p.1, tail.indexOf p.2)) }
          : Source))).getD
          (tail.getD i 0) default).imports =
        (sources[tail.getD i 0]).imports.map
          (fun p : Nat × Nat => (p.1, tail.indexOf p.2)) := by
      rw [List.getD_eq_getElem _ _ (by rw [List.length_map]; omega), List.getElem_map]
    rw [h2] at hp
    rw [h3] at hp
    simp only [List.mem_map] at hp
    obtain ⟨q, hq, hpq⟩ := hp
    have hq2 : q.2 ∈ importsOf sources (tail.getD i 0) := by
      rw [importsOf_getElem sources _ hoidn]
      exact List.mem_map_of_mem _ hq
    have hdi := hdoneO i (by omega) q.2 hq2
    have := indexOf_lt_of_mem_take hdi
    rw [← hpq]
    exact this

/-- Concrete instantiation of the amended C2 on the spec's import-graph
scenario (A imports B and C, B imports C, loaded in order A, B, C): the
graph is acyclic (ranked by `2 - i`), and after sorting every import id is
below the importing source's id. -/
theorem topoSort_imports_below_witness :
    importsBelowIndex (topoSort
      [⟨10, none, [(0, 1), (1, 2)]⟩, ⟨11, none, [(0, 2)]⟩, ⟨12, none, []⟩]) :=
  topoSort_imports_below _ (fun i => 2 - i) (by decide) (by decide) (by decide)

/-- Counterexample to claim C2 as stated: in the cyclic import graph where
source 0 imports source 1 and source 1 imports source 0, the sorted vector
cannot (and does not) satisfy `import id < own id` for both sources:
`topo_sort` yields `[source 1 importing id 1, source 0 importing id 0]`. -/
theorem topoSort_cycle_counterexample :
    ¬ importsBelowIndex
      (topoSort [⟨0, none, [(0, 1)]⟩, ⟨1, none, [(0, 0)]⟩]) := by decide

/-! ## Lexer (`crates/parse/src/lexer/mod.rs`)

The raw cursor (`lexer/cursor.rs`) is not among the provided sources; it is
modelled from the specification (§4.1), with the block-doc-comment corner
rule (`/***/` is not a doc comment) taken from the lexer tests in
`lexer/mod.rs`, which are part of the provided sources.  Source text is a
`List Char`; spans are byte offsets (`Char.utf8Size`). -/

/-- `sulk_ast::ast::Base`. -/
inductive Base where
  | binary | octal | decimal | hexadecimal
  deriving DecidableEq, Repr

/-- The `Display` text of a base, as it appears inside error messages. -/
def Base.str : Base → String
  | .binary => "binary"
  | .octal => "octal"
  | .decimal => "decimal"
  | .hexadecimal => "hexadecimal"

/-- Raw literal kinds (`cursor::RawLiteralKind`), modelled from the spec. -/
inductive RawLitKind where
  | str (terminated : Bool) (unicode : Bool)
  | hexStr (terminated : Bool)
  | int (base : Base) (emptyInt : Bool)
  | rational (base : Base) (emptyExponent : Bool)
  deriving DecidableEq, Repr

/-- Raw token kinds (`cursor::RawTokenKind`), modelled from the spec. -/
inductive RawTokenKind where
  | lineComment (isDoc : Bool)
  | blockComment (isDoc : Bool) (terminated : Bool)
  | whitespace
  | ident
  | unknownPrefix
  | literal (kind : RawLitKind)
  | semi | comma | dot | openParen | closeParen | openBrace | closeBrace
  | openBracket | closeBracket | tilde | question | colon | eq | bang | lt | gt
  | minus | andSym | orSym | plus | star | slash | caret | percent
  | unknown
  | eof
  deriving DecidableEq, Repr

/-- Modelled from the spec: the Solidity whitespace class (ASCII space, tab,
newlines, form feed, vertical tab; U+00A0 is NOT whitespace). -/
def isWhitespaceChar (c : Char) : Bool :=
  c = ' ' || c = '\t' || c = '\n' || c = '\r' || c = '\x0b' || c = '\x0c'

/-- Modelled from the spec: identifier start `[A-Za-z_$]`. -/
def isIdStart (c : Char) : Bool :=
  ('a' ≤ c && c ≤ 'z') || ('A' ≤ c && c ≤ 'Z') || c = '_' || c = '$'

/-- Modelled from the spec: identifier continue `[A-Za-z0-9_$]`. -/
def isIdContinue (c : Char) : Bool :=
  isIdStart c || ('0' ≤ c && c ≤ '9')

def isDigitChar (c : Char) : Bool := '0' ≤ c && c ≤ '9'

def isHexDigitChar (c : Char) : Bool :=
  isDigitChar c || ('a' ≤ c && c ≤ 'f') || ('A' ≤ c && c ≤ 'F')

/-- The UTF-8 byte length of a character sequence. -/
def utf8Len (l : List Char) : Nat := (l.map Char.utf8Size).sum

/-- Modelled from the spec: scan for the first `*/` inside a block comment,
returning the number of characters up to and including it. -/
def blockCommentEnd : List Char → Option Nat
  | '*' :: '/' :: _ => some 2
  | _ :: rest => (blockCommentEnd rest).map (· + 1)
  | [] => none

/-- Modelled from the spec: scan a quoted string after its opening quote.
Backslash escapes consume the next character; an unescaped newline or EOF
leaves the string unterminated.  Returns `(consumed, terminated)` where
`consumed` counts characters after the opening quote (including the closing
quote when present). -/
def stringEnd (quote : Char) : List Char → Nat × Bool
  | [] => (0, false)
  | c :: rest =>
    if c = quote then (1, true)
    else if c = '\n' then (0, false)
    else if c = '\\' then
      match rest with
      | [] => (1, false)
      | _ :: rest' =>
        let (n, t) := stringEnd quote rest'
        (n + 2, t)
    else
      let (n, t) := stringEnd quote rest
      (n + 1, t)

/-- Modelled from the spec: digits-with-underscores run for a given digit
class. -/
def digitRun (p : Char → Bool) (l : List Char) : Nat :=
  (l.takeWhile (fun c => p c || c = '_')).length

/-- Whether the run contains at least one real digit (not only `_`). -/
def hasDigit (p : Char → Bool) (l : List Char) : Bool :=
  (l.takeWhile (fun c => p c || c = '_')).any p

/-- Modelled from the spec: the fractional/exponent continuation of a
numeric literal, after its integer part.  Returns the extra consumed
characters and the classification (`none` = still an integer).
Mirrors the reference behavior: a `.` is only consumed when not followed by
`.` or an identifier start; an `e`/`E` is always consumed, with an optional
sign, and `empty_exponent` is set when no digits follow. -/
def numberCont (l : List Char) : Nat × Option Bool :=
  match l with
  | '.' :: c :: _ =>
    if c = '.' || isIdStart c then (0, none)
    else
      -- consume `.`, fraction digits, then an optional exponent
      let frac := digitRun isDigitChar (l.drop 1)
      let rest := l.drop (1 + frac)
      match rest with
      | 'e' :: rest' | 'E' :: rest' =>
        let (sn, rest'') :=
          match rest' with
          | '+' :: r => (1, r)
          | '-' :: r => (1, r)
          | r => (0, r)
        let ed := digitRun isDigitChar rest''
        (1 + frac + 1 + sn + ed, some (ed = 0 || !hasDigit isDigitChar rest''))
      | _ => (1 + frac, some false)
  | ['.'] => (1, some false)
  | 'e' :: rest' | 'E' :: rest' =>
    let (sn, rest'') :=
      match rest' with
      | '+' :: r => (1, r)
      | '-' :: r => (1, r)
      | r => (0, r)
    let ed := digitRun isDigitChar rest''
    (1 + sn + ed, some (ed = 0 || !hasDigit isDigitChar rest''))
  | _ => (0, none)

/-- Modelled from the spec: a numeric literal beginning with digit `c₀`,
with `cs` the remaining input.  Returns the raw literal kind and the number
of characters consumed after `c₀`. -/
def numberToken (c₀ : Char) (cs : List Char) : RawLitKind × Nat :=
  if hpre : c₀ = '0' ∧ (cs.head? = some 'b' ∨ cs.head? = some 'o' ∨ cs.head? = some 'x') then
    let base : Base :=
      if cs.head? = some 'b' then .binary
      else if cs.head? = some 'o' then .octal
      else .hexadecimal
    let p : Char → Bool := if cs.head? = some 'x' then isHexDigitChar else isDigitChar
    let body := cs.drop 1
    let run := digitRun p body
    if !hasDigit p body then (.int base true, 1 + run)
    else
      let (extra, cls) := numberCont (body.drop run)
      match cls with
      | some emptyExp => (.rational base emptyExp, 1 + run + extra)
      | none => (.int base false, 1 + run + extra)
  else
    let run := digitRun isDigitChar cs
    let (extra, cls) := numberCont (cs.drop run)
    match cls with
    | some emptyExp => (.rational .decimal emptyExp, run + extra)
    | none => (.int .decimal false, run + extra)

/-- Modelled from the spec (§4.1): one step of the raw cursor on input
`c :: cs`.  Returns the raw token kind together with the number of
characters consumed AFTER the leading `c`. -/
def advanceCore (c : Char) (cs : List Char) : RawTokenKind × Nat :=
  if c = '/' then
    match cs with
    | '/' :: rest2 =>
      let isDoc :=
        match rest2 with
        | '/' :: rest3 =>
          match rest3 with
          | '/' :: _ => false
          | _ => true
        | _ => false
      (.lineComment isDoc, 1 + (rest2.takeWhile (· ≠ '\n')).length)
    | '*' :: rest2 =>
      let isDoc :=
        match rest2 with
        | '*' :: rest3 =>
          match rest3 with
          | '*' :: _ => false
          | '/' :: _ => false
          | _ => true
        | _ => false
      match blockCommentEnd rest2 with
      | some m => (.blockComment isDoc true, 1 + m)
      | none => (.blockComment isDoc false, 1 + rest2.length)
    | _ => (.slash, 0)
  else if isWhitespaceChar c then
    (.whitespace, (cs.takeWhile isWhitespaceChar).length)
  else if isIdStart c then
    let idRest := cs.takeWhile isIdContinue
    let after := cs.drop idRest.length
    match after with
    | q :: rest2 =>
      if q = '"' || q = '\'' then
        let name := c :: idRest
        if name = "unicode".toList then
          let (m, t) := stringEnd q rest2
          (.literal (.str t true), idRest.length + 1 + m)
        else if name = "hex".toList then
          let (m, t) := stringEnd q rest2
          (.literal (.hexStr t), idRest.length + 1 + m)
        else
          (.unknownPrefix, idRest.length)
      else (.ident, idRest.length)
    | [] => (.ident, idRest.length)
  else if isDigitChar c then
    let (kind, m) := numberToken c cs
    (.literal kind, m)
  else if c = '"' || c = '\'' then
    let (m, t) := stringEnd c cs
    (.literal (.str t false), m)
  else if c = ';' then (.semi, 0)
  else if c = ',' then (.comma, 0)
  else if c = '.' then (.dot, 0)
  else if c = '(' then (.openParen, 0)
  else if c = ')' then (.closeParen, 0)
  else if c = '{' then (.openBrace, 0)
  else if c = '}' then (.closeBrace, 0)
  else if c = '[' then (.openBracket, 0)
  else if c = ']' then (.closeBracket, 0)
  else if c = '~' then (.tilde, 0)
  else if c = '?' then (.question, 0)
  else if c = ':' then (.colon, 0)
  else if c = '=' then (.eq, 0)
  else if c = '!' then (.bang, 0)
  else if c = '<' then (.lt, 0)
  else if c = '>' then (.gt, 0)
  else if c = '-' then (.minus, 0)
  else if c = '&' then (.andSym, 0)
  else if c = '|' then (.orSym, 0)
  else if c = '+' then (.plus, 0)
  else if c = '*' then (.star, 0)
  else if c = '^' then (.caret, 0)
  else if c = '%' then (.percent, 0)
  else (.unknown, 0)

/-- Modelled from the spec (§4.1): one step of the raw cursor.  Returns the
raw token kind and the total number of characters consumed (`0` only at
EOF). -/
def advanceToken : List Char → RawTokenKind × Nat
  | [] => (.eof, 0)
  | c :: cs => ((advanceCore c cs).1, 1 + (advanceCore c cs).2)

theorem advanceToken_pos (c : Char) (cs : List Char) : 1 ≤ (advanceToken (c :: cs)).2 := by
  rw [advanceToken]
  omega

/-- `sulk_ast::token::BinOpToken`. -/
inductive BinOpToken where
  | plus | minus | star | slash | percent | caret | andOp | orOp | shl | shr | sar
  deriving DecidableEq, Repr

/-- `sulk_ast::token::Delimiter`. -/
inductive Delimiter where
  | paren | brace | bracket
  deriving DecidableEq, Repr

/-- `sulk_ast::token::CommentKind`. -/
inductive CommentKind where
  | line | block
  deriving DecidableEq, Repr

/-- `sulk_ast::token::LitKind`. -/
inductive LitKind where
  | str | unicodeStr | hexStr | integer | rational | err
  deriving DecidableEq, Repr

/-- Cooked token kinds (`sulk_ast::token::TokenKind`), as named by the
cooking table in `lexer/mod.rs`; symbols are interned as `String`s. -/
inductive TokenKind where
  | ident (sym : String)
  | literal (kind : LitKind) (sym : String)
  | docComment (ck : CommentKind) (sym : String)
  | openDelim (d : Delimiter)
  | closeDelim (d : Delimiter)
  | semi | comma | dot | tilde | question | colon | eq | not | lt | gt
  | binOp (op : BinOpToken)
  | binOpEq (op : BinOpToken)
  | eqEq | ne | le | ge | fatArrow | arrow | plusPlus | minusMinus | starStar
  | andAnd | orOr | walrus
  | eof
  deriving DecidableEq, Repr

/-- A cooked token: kind and byte span `[lo, hi)`. -/
structure Token where
  kind : TokenKind
  span : Nat × Nat
  deriving DecidableEq, Repr

/-- A diagnostic: message, primary span, optional note and help, and
whether it is fatal. -/
structure Diag where
  msg : String
  span : Nat × Nat
  note : Option String := none
  help : Option String := none
  fatal : Bool := false
  deriving DecidableEq, Repr

/-- Modelled from the spec (§4.2 glueing table): `Token::glue` on kinds.
Any pair not listed does not glue. -/
def glueKind : TokenKind → TokenKind → Option TokenKind
  | .eq, .eq => some .eqEq
  | .eq, .gt => some .fatArrow
  | .not, .eq => some .ne
  | .lt, .eq => some .le
  | .lt, .lt => some (.binOp .shl)
  | .gt, .eq => some .ge
  | .gt, .gt => some (.binOp .shr)
  | .binOp .shr, .gt => some (.binOp .sar)
  | .binOp .shl, .eq => some (.binOpEq .shl)
  | .binOp .shr, .eq => some (.binOpEq .shr)
  | .binOp .sar, .eq => some (.binOpEq .sar)
  | .binOp .plus, .binOp .plus => some .plusPlus
  | .binOp .minus, .binOp .minus => some .minusMinus
  | .binOp .minus, .gt => some .arrow
  | .binOp .star, .binOp .star => some .starStar
  | .binOp .orOp, .binOp .orOp => some .orOr
  | .binOp .andOp, .binOp .andOp => some .andAnd
  | .binOp .orOp, .eq => some (.binOpEq .orOp)
  | .binOp .andOp, .eq => some (.binOpEq .andOp)
  | .binOp .caret, .eq => some (.binOpEq .caret)
  | .binOp .plus, .eq => some (.binOpEq .plus)
  | .binOp .minus, .eq => some (.binOpEq .minus)
  | .binOp .star, .eq => some (.binOpEq .star)
  | .binOp .slash, .eq => some (.binOpEq .slash)
  | .binOp .percent, .eq => some (.binOpEq .percent)
  | .colon, .eq => some .walrus
  | _, _ => none

/-- `Token::glue` on tokens: the glued token spans both constituents. -/
def Token.glue (prev next : Token) : Option Token :=
  (glueKind prev.kind next.kind).map (fun k => ⟨k, (prev.span.1, next.span.2)⟩)

/-- Byte offsets of every `\r` in a character sequence
(`content.char_indices().filter(c == '\r')` in `cook_doc_comment`). -/
def crOffsets : List Char → Nat → List Nat
  | [], _ => []
  | c :: cs, acc =>
    (if c = '\r' then [acc] else []) ++ crOffsets cs (acc + c.utf8Size)

/-- `Lexer::cook_doc_comment`: report every `\r` in the content (message
"bare CR not allowed in [block ]doc-comment", one-byte span), and intern the
content. -/
def cookDocComment (contentStart : Nat) (content : List Char) (ck : CommentKind) :
    TokenKind × List Diag :=
  let block := if ck = .block then "block " else ""
  let diags := (crOffsets content 0).map (fun idx =>
    { msg := "bare CR not allowed in " ++ block ++ "doc-comment"
      span := (contentStart + idx, contentStart + idx + 1) : Diag })
  (.docComment ck ⟨content⟩, diags)

/-- Modelled from the spec (§4.2 cook-literal): escape-sequence validation
for quoted strings (`unescape::unescape_literal`, whose module is not among
the provided sources).  Returns whether any (fatal) escape error occurred.
-/
def hasEscapeErr : List Char → Bool
  | [] => false
  | '\\' :: c :: rest =>
    if c = 'n' || c = 'r' || c = 't' || c = '\\' || c = '\'' || c = '"' || c = '0'
        || c = '\n' then
      hasEscapeErr rest
    else if c = 'x' then
      match rest with
      | a :: b :: rest' =>
        if isHexDigitChar a && isHexDigitChar b then hasEscapeErr rest' else true
      | _ => true
    else if c = 'u' then
      match rest with
      | a :: b :: d :: e :: rest' =>
        if isHexDigitChar a && isHexDigitChar b && isHexDigitChar d && isHexDigitChar e then
          hasEscapeErr rest'
        else true
      | _ => true
    else true
  | ['\\'] => true
  | _ :: rest => hasEscapeErr rest

/-- Modelled from the spec: hex-string content must be pairs of hex digits
optionally separated by single `_`. -/
def hexStrOk (l : List Char) : Bool :=
  ((l.filter (· ≠ '_')).all isHexDigitChar) && (l.filter (· ≠ '_')).length % 2 = 0

/-- `Lexer::cook_quoted`: slice the content between the quotes (after the
prefix), validate escapes, and intern.  On a fatal escape error the kind is
`Err` and the symbol keeps the surrounding quotes. -/
def cookQuoted (kind : LitKind) (lexeme : List Char) (prefixLen : Nat) :
    LitKind × String :=
  let content := (lexeme.drop (prefixLen + 1)).dropLast
  let bad :=
    match kind with
    | .hexStr => !hexStrOk content
    | _ => hasEscapeErr content
  if bad then (.err, ⟨lexeme⟩) else (kind, ⟨content⟩)

/-- `Lexer::cook_literal`.  Returns `none` on a fatal diagnostic
(unterminated string), in which case the lexer yields a synthetic EOF; the
diagnostics are returned alongside. -/
def cookLiteral (start endPos : Nat) (kind : RawLitKind) (lexeme : List Char) :
    Option (LitKind × String) × List Diag :=
  match kind with
  | .str terminated unicode =>
    if !terminated then
      (none, [{ msg := "unterminated string", span := (start, endPos), fatal := true }])
    else
      let kind := if unicode then LitKind.unicodeStr else LitKind.str
      let prefixLen := if unicode then 7 else 0
      (some (cookQuoted kind lexeme prefixLen), [])
  | .hexStr terminated =>
    if !terminated then
      (none, [{ msg := "unterminated hex string", span := (start, endPos), fatal := true }])
    else
      (some (cookQuoted .hexStr lexeme 3), [])
  | .int base emptyInt =>
    if emptyInt then
      (some (.integer, "0"),
        [{ msg := "no valid digits found for number", span := (start, endPos) }])
    else if base = .binary || base = .octal then
      (some (.integer, ⟨lexeme⟩),
        [{ msg := "integers in base " ++ base.str ++ " are not supported"
           span := (start + 2, endPos) }])
    else
      (some (.integer, ⟨lexeme⟩), [])
  | .rational base emptyExponent =>
    let d1 : List Diag :=
      if emptyExponent then
        [{ msg := "expected at least one digit in exponent", span := (start, endPos) }]
      else []
    let d2 : List Diag :=
      if base = .binary || base = .octal || base = .hexadecimal then
        [{ msg := base.str ++ " rational numbers are not supported", span := (start, endPos) }]
      else []
    (some (.rational, ⟨lexeme⟩), d1 ++ d2)

/-- Non-breaking space U+00A0. -/
def nbspChar : Char := Char.ofNat 0xa0

/-- `escaped_char`: printable ASCII is kept as-is; anything else uses the
escape-default form. -/
def escapedChar (c : Char) : String :=
  if ' ' ≤ c && c ≤ '~' then String.singleton c
  else if c = '\t' then "\\t"
  else if c = '\r' then "\\r"
  else if c = '\n' then "\\n"
  else "\\u\x7b" ++ ⟨Nat.toDigits 16 c.toNat⟩ ++ "\x7d"

/-- The lexer state: remaining input, current byte position, and the
`nbsp_is_whitespace` flag. -/
structure LexState where
  rest : List Char
  pos : Nat
  nbsp : Bool
  deriving DecidableEq, Repr

/-- The result of `Lexer::bump`: the produced token, the
`preceded_by_whitespace` flag, the new state, and the emitted diagnostics in
order. -/
structure BumpResult where
  token : Token
  precededByWs : Bool
  state : LexState
  diags : List Diag
  deriving DecidableEq, Repr

/-- `Lexer::bump`: cook raw tokens, skipping whitespace, non-doc comments
and swallowed/elided unknown characters, until a cooked token (or EOF) is
produced.  A fatal diagnostic (unterminated string or block comment) makes
the lexer yield a synthetic EOF (§7 of the spec: the source's fatal
emission unwinds). -/
def bumpF : Nat → LexState → Bool → Nat → BumpResult
  | 0, st, precededByWs, _ => ⟨⟨.eof, (st.pos, st.pos)⟩, precededByWs, st, []⟩
  | fuel + 1, st, precededByWs, swallow =>
  match st.rest with
  | [] => ⟨⟨.eof, (st.pos, st.pos)⟩, precededByWs, st, []⟩
  | c :: cs =>
    let rawKind := (advanceCore c cs).1
    let n := 1 + (advanceCore c cs).2
    let taken := (c :: cs).take n
    let start := st.pos
    let newPos := st.pos + utf8Len taken
    let st' : LexState := ⟨(c :: cs).drop n, newPos, st.nbsp⟩
    match rawKind with
    | .lineComment isDoc =>
      if isDoc then
        let (kind, ds) := cookDocComment (start + 3) (taken.drop 3) .line
        ⟨⟨kind, (start, newPos)⟩, precededByWs, st', ds⟩
      else bumpF fuel st' true swallow
    | .blockComment isDoc terminated =>
      if terminated then
        if isDoc then
          let (kind, ds) := cookDocComment (start + 3) ((taken.drop 3).dropLast.dropLast) .block
          ⟨⟨kind, (start, newPos)⟩, precededByWs, st', ds⟩
        else bumpF fuel st' true swallow
      else
        ⟨⟨.eof, (start, newPos)⟩, precededByWs, st',
          [{ msg := if isDoc then "unterminated block doc-comment"
               else "unterminated block comment"
             span := (start, newPos), fatal := true }]⟩
    | .whitespace => bumpF fuel st' true swallow
    | .ident => ⟨⟨.ident ⟨taken⟩, (start, newPos)⟩, precededByWs, st', []⟩
    | .unknownPrefix =>
      ⟨⟨.ident ⟨taken⟩, (start, newPos)⟩, precededByWs, st',
        [{ msg := "prefix " ++ (⟨taken⟩ : String) ++ " is unknown", span := (start, newPos) }]⟩
    | .literal k =>
      match cookLiteral start newPos k taken with
      | (some (lk, sym), ds) => ⟨⟨.literal lk sym, (start, newPos)⟩, precededByWs, st', ds⟩
      | (none, ds) => ⟨⟨.eof, (start, newPos)⟩, precededByWs, st', ds⟩
    | .semi => ⟨⟨.semi, (start, newPos)⟩, precededByWs, st', []⟩
    | .comma => ⟨⟨.comma, (start, newPos)⟩, precededByWs, st', []⟩
    | .dot => ⟨⟨.dot, (start, newPos)⟩, precededByWs, st', []⟩
    | .openParen => ⟨⟨.openDelim .paren, (start, newPos)⟩, precededByWs, st', []⟩
    | .closeParen => ⟨⟨.closeDelim .paren, (start, newPos)⟩, precededByWs, st', []⟩
    | .openBrace => ⟨⟨.openDelim .brace, (start, newPos)⟩, precededByWs, st', []⟩
    | .closeBrace => ⟨⟨.closeDelim .brace, (start, newPos)⟩, precededByWs, st', []⟩
    | .openBracket => ⟨⟨.openDelim .bracket, (start, newPos)⟩, precededByWs, st', []⟩
    | .closeBracket => ⟨⟨.closeDelim .bracket, (start, newPos)⟩, precededByWs, st', []⟩
    | .tilde => ⟨⟨.tilde, (start, newPos)⟩, precededByWs, st', []⟩
    | .question => ⟨⟨.question, (start, newPos)⟩, precededByWs, st', []⟩
    | .colon => ⟨⟨.colon, (start, newPos)⟩, precededByWs, st', []⟩
    | .eq => ⟨⟨.eq, (start, newPos)⟩, precededByWs, st', []⟩
    | .bang => ⟨⟨.not, (start, newPos)⟩, precededByWs, st', []⟩
    | .lt => ⟨⟨.lt, (start, newPos)⟩, precededByWs, st', []⟩
    | .gt => ⟨⟨.gt, (start, newPos)⟩, precededByWs, st', []⟩
    | .minus => ⟨⟨.binOp .minus, (start, newPos)⟩, precededByWs, st', []⟩
    | .andSym => ⟨⟨.binOp .andOp, (start, newPos)⟩, precededByWs, st', []⟩
    | .orSym => ⟨⟨.binOp .orOp, (start, newPos)⟩, precededByWs, st', []⟩
    | .plus => ⟨⟨.binOp .plus, (start, newPos)⟩, precededByWs, st', []⟩
    | .star => ⟨⟨.binOp .star, (start, newPos)⟩, precededByWs, st', []⟩
    | .slash => ⟨⟨.binOp .slash, (start, newPos)⟩, precededByWs, st', []⟩
    | .caret => ⟨⟨.binOp .caret, (start, newPos)⟩, precededByWs, st', []⟩
    | .percent => ⟨⟨.binOp .percent, (start, newPos)⟩, precededByWs, st', []⟩
    | .unknown =>
      if 0 < swallow then bumpF fuel st' precededByWs (swallow - 1)
      else if c = nbspChar && st.nbsp then bumpF fuel st' true swallow
      else
        let repeats := (cs.takeWhile (· = c)).length
        let diag : Diag :=
          { msg := "unknown start of token: " ++ escapedChar c
            span := (start, newPos + repeats * c.utf8Size)
            help :=
              if c = '\x00' then
                some "source files must contain UTF-8 encoded text, unexpected null bytes might occur when a different encoding is used"
              else none
            note :=
              if 0 < repeats then
                some ("character repeats " ++
                  (if repeats = 1 then "once more" else toString repeats ++ " more times"))
              else none }
        let r := bumpF fuel ⟨(c :: cs).drop n, newPos, st.nbsp || c = nbspChar⟩ true repeats
        ⟨r.token, r.precededByWs, r.state, diag :: r.diags⟩
    | .eof => ⟨⟨.eof, (start, newPos)⟩, precededByWs, st', []⟩

/-- `Lexer::bump` proper: the fuel `rest.length + 1` always suffices, since
every skipped raw token consumes at least one character. -/
def bump (st : LexState) (precededByWs : Bool) (swallow : Nat) : BumpResult :=
  bumpF (st.rest.length + 1) st precededByWs swallow

/-- Any sufficient fuel computes the same `bump` result. -/
theorem bumpF_congr : ∀ (f₁ : Nat) (st : LexState) (pws : Bool) (sw : Nat) (f₂ : Nat),
    st.rest.length < f₁ → st.rest.length < f₂ →
    bumpF f₁ st pws sw = bumpF f₂ st pws sw := by
  intro f₁
  induction f₁ with
  | zero =>
    intro st _ _ _ h _
    omega
  | succ f ih =>
    intro st pws sw f₂ h₁ h₂
    cases f₂ with
    | zero => omega
    | succ g =>
      rcases st with ⟨rest, pos, nbsp⟩
      rcases rest with _ | ⟨c, cs⟩
      · rfl
      · simp only [List.length_cons] at h₁ h₂
        simp only [bumpF]
        repeat' split
        all_goals try rfl
        all_goals try (apply ih <;> (simp only [List.length_drop, List.length_cons]; omega))
        all_goals
          (have hrw := ih ⟨List.drop (1 + (advanceCore c cs).2) (c :: cs),
              pos + utf8Len (List.take (1 + (advanceCore c cs).2) (c :: cs)),
              nbsp || decide (c = nbspChar)⟩ true
              ((List.takeWhile (fun x => decide (x = c)) cs).length) g
              (by simp only [List.length_drop, List.length_cons]; omega)
              (by simp only [List.length_drop, List.length_cons]; omega)
           rw [hrw])

theorem utf8Len_singleton (c : Char) : utf8Len [c] = c.utf8Size := by
  simp [utf8Len]

theorem takeWhile_replicate_head (c : Char) :
    ∀ (m : Nat) (rest : List Char), rest.head? ≠ some c →
      List.takeWhile (fun x => decide (x = c)) (List.replicate m c ++ rest) =
        List.replicate m c := by
  intro m
  induction m with
  | zero =>
    intro rest h
    cases rest with
    | nil => rfl
    | cons r rs =>
      have hr : ¬ (r = c) := fun e => h (by simp [e])
      simp [List.takeWhile_cons, hr]
  | succ m ih =>
    intro rest h
    simp only [List.replicate_succ, List.cons_append, List.takeWhile_cons]
    simp [ih rest h]

/-- One step of `bump` on an unswallowed, unelided unknown character:
count the following identical characters, emit the single run diagnostic,
and continue with `swallow` set to the repeat count. -/
theorem bumpF_unknown_step (c : Char) (cs : List Char) (p : Nat) (nb pws : Bool) (f : Nat)
    (hc : advanceCore c cs = (.unknown, 0))
    (hnb : (decide (c = nbspChar) && nb) = false) :
    bumpF (f + 1) ⟨c :: cs, p, nb⟩ pws 0 =
      { token := (bumpF f ⟨cs, p + c.utf8Size, nb || decide (c = nbspChar)⟩ true
          (List.takeWhile (fun x => decide (x = c)) cs).length).token
        precededByWs := (bumpF f ⟨cs, p + c.utf8Size, nb || decide (c = nbspChar)⟩ true
          (List.takeWhile (fun x => decide (x = c)) cs).length).precededByWs
        state := (bumpF f ⟨cs, p + c.utf8Size, nb || decide (c = nbspChar)⟩ true
          (List.takeWhile (fun x => decide (x = c)) cs).length).state
        diags :=
          { msg := "unknown start of token: " ++ escapedChar c
            span := (p, p + c.utf8Size +
              (List.takeWhile (fun x => decide (x = c)) cs).length * c.utf8Size)
            help :=
              if c = '\x00' then
                some "source files must contain UTF-8 encoded text, unexpected null bytes might occur when a different encoding is used"
              else none
            note :=
              if 0 < (List.takeWhile (fun x => decide (x = c)) cs).length then
                some ("character repeats " ++
                  (if (List.takeWhile (fun x => decide (x = c)) cs).length = 1 then "once more"
                   else toString (List.takeWhile (fun x => decide (x = c)) cs).length ++
                     " more times"))
              else none } ::
            (bumpF f ⟨cs, p + c.utf8Size, nb || decide (c = nbspChar)⟩ true
              (List.takeWhile (fun x => decide (x = c)) cs).length).diags } := by
  conv_lhs => rw [bumpF]
  simp only [hc, hnb, utf8Len_singleton, List.drop_succ_cons, List.drop_zero,
    List.take_succ_cons, List.take_zero, Nat.lt_irrefl, if_false, Bool.false_eq_true]

/-- Swallowing a run of `j` identical unknown characters advances the
position by `j` characters and decrements `swallow` by `j`, emitting
nothing. -/
theorem bumpF_swallow_run (c : Char)
    (hc : ∀ cs, advanceCore c cs = (.unknown, 0)) :
    ∀ (j : Nat) (rest : List Char) (p : Nat) (nb pws : Bool) (f sw : Nat),
      j ≤ sw →
      bumpF (f + j) ⟨List.replicate j c ++ rest, p, nb⟩ pws sw =
        bumpF f ⟨rest, p + j * c.utf8Size, nb⟩ pws (sw - j) := by
  intro j
  induction j with
  | zero =>
    intro rest p nb pws f sw _
    simp
  | succ m ih =>
    intro rest p nb pws f sw hj
    show bumpF ((f + m) + 1) ⟨c :: (List.replicate m c ++ rest), p, nb⟩ pws sw = _
    conv_lhs => rw [bumpF]
    simp only [hc, utf8Len_singleton, List.drop_succ_cons, List.drop_zero,
      List.take_succ_cons, List.take_zero]
    rw [if_pos (by omega)]
    rw [ih rest (p + c.utf8Size) nb pws f (sw - 1) (by omega)]
    have h₁ : p + c.utf8Size + m * c.utf8Size = p + (m + 1) * c.utf8Size := by ring
    have h₂ : sw - 1 - m = sw - (m + 1) := by omega
    rw [h₁, h₂]

/-- The loop inside `Lexer::next_token`: bump; if the new token was
preceded by whitespace/comment, stop; otherwise try to glue it onto the
look-behind token and continue.  Returns
`(emitted token, new pending token, state, diagnostics)`.  Fuel is bounded
by the remaining input length (each glue step consumes at least one
character). -/
def nextTokenLoop (cur : Token) : Nat → LexState → Token × Token × LexState × List Diag
  | 0, st => (cur, ⟨.eof, (st.pos, st.pos)⟩, st, [])
  | fuel + 1, st =>
    let r := bump st false 0
    if r.precededByWs then (cur, r.token, r.state, r.diags)
    else
      match Token.glue cur r.token with
      | some glued =>
        let (t, p, s, ds) := nextTokenLoop glued fuel r.state
        (t, p, s, r.diags ++ ds)
      | none => (cur, r.token, r.state, r.diags)

/-- `Lexer::next_token`. -/
def nextToken (st : LexState) (cur : Token) : Token × Token × LexState × List Diag :=
  nextTokenLoop cur (st.rest.length + 1) st

/-- The loop of `Lexer::into_tokens`: collect tokens until EOF. -/
def lexLoop : Nat → LexState → Token → List Token × List Diag
  | 0, _, _ => ([], [])
  | fuel + 1, st, pending =>
    let (tok, pending', st', ds) := nextToken st pending
    if tok.kind = .eof then ([], ds)
    else
      let (ts, ds') := lexLoop fuel st' pending'
      (tok :: ts, ds ++ ds')

/-- `Lexer::new` followed by `into_tokens`: the constructor performs one
`bump` to fill the look-behind token, then tokens are collected until EOF.
Returns the token list and all emitted diagnostics in order. -/
def lexSrc (src : List Char) : List Token × List Diag :=
  let r := bump ⟨src, 0, false⟩ false 0
  let (ts, ds) := lexLoop (src.length + 2) r.state r.token
  (ts, r.diags ++ ds)

/-- `lexSrc` on a string. -/
def lexStr (s : String) : List Token × List Diag := lexSrc s.toList

/-! ### Lexer claims -/

/-- Claim C6: cooking a raw integer literal.  `empty_int` yields an error
and symbol `"0"`; binary/octal (with digits) yield the "not supported"
error but keep the full lexeme; hexadecimal and decimal yield the full
lexeme with no error. -/
theorem cookLiteral_int_spec :
    ∀ (start endPos : Nat) (lexeme : List Char),
      (∀ base, cookLiteral start endPos (.int base true) lexeme =
        (some (.integer, "0"),
          [{ msg := "no valid digits found for number", span := (start, endPos) }])) ∧
      cookLiteral start endPos (.int .binary false) lexeme =
        (some (.integer, ⟨lexeme⟩),
          [{ msg := "integers in base binary are not supported",
             span := (start + 2, endPos) }]) ∧
      cookLiteral start endPos (.int .octal false) lexeme =
        (some (.integer, ⟨lexeme⟩),
          [{ msg := "integers in base octal are not supported",
             span := (start + 2, endPos) }]) ∧
      cookLiteral start endPos (.int .decimal false) lexeme =
        (some (.integer, ⟨lexeme⟩), []) ∧
      cookLiteral start endPos (.int .hexadecimal false) lexeme =
        (some (.integer, ⟨lexeme⟩), []) := by
  intro start endPos lexeme
  refine ⟨fun base => ?_, rfl, rfl, rfl, rfl⟩
  cases base <;> rfl

/-- The number of bare CRs (a `\r` not followed by `\n`) in a character
sequence — the quantity claim C4 says is reported. -/
def bareCRCount : List Char → Nat
  | [] => 0
  | '\r' :: rest =>
    (if rest.head? = some '\n' then 0 else 1) + bareCRCount rest
  | _ :: rest => bareCRCount rest

/-- Counterexample to claim C4 as stated: the content of the doc comment
`/** \r\n*/` contains no bare CR (its `\r` is followed by `\n`), yet
cooking emits one "bare CR" error: `cook_doc_comment` reports every `\r`,
bare or not. -/
theorem cookDocComment_bareCR_counterexample :
    bareCRCount (' ' :: '\r' :: '\n' :: []) = 0 ∧
    lexStr "/** \r\n*/" =
      ([⟨.docComment .block " \r\n", (0, 8)⟩],
        [{ msg := "bare CR not allowed in block doc-comment", span := (4, 5) }]) := by
  exact ⟨rfl, rfl⟩

theorem crOffsets_length (l : List Char) (acc : Nat) :
    (crOffsets l acc).length = (l.filter (· = '\r')).length := by
  induction l generalizing acc with
  | nil => rfl
  | cons c cs ih =>
    by_cases hc : c = '\r'
    · simp [crOffsets, hc, List.filter_cons, ih]
    · simp only [crOffsets, List.filter_cons]
      rw [if_neg hc]
      simp only [decide_eq_true_eq, hc, if_false]
      rw [List.nil_append]
      exact ih _

/-- Claim C4, amended: cooking a doc comment reports one error per CR
occurrence in the content (whether or not the CR is followed by LF), each
with a one-byte span and the "[block ]doc-comment" message, and interns
exactly the content; on the claim's concrete input `"/** \r x */"` the
lexer yields one `DocComment(Block, " \r x ")` token and exactly one
"bare CR not allowed in block doc-comment" error with span `[4, 5)`. -/
theorem cookDocComment_spec :
    (∀ (contentStart : Nat) (content : List Char) (ck : CommentKind),
      (cookDocComment contentStart content ck).1 = .docComment ck ⟨content⟩ ∧
      (cookDocComment contentStart content ck).2.length =
        (content.filter (· = '\r')).length ∧
      ∀ d ∈ (cookDocComment contentStart content ck).2,
        d.msg = "bare CR not allowed in " ++
          (if ck = .block then "block " else "") ++ "doc-comment" ∧
        d.span.2 = d.span.1 + 1) ∧
    lexStr "/** \r x */" =
      ([⟨.docComment .block " \r x ", (0, 10)⟩],
        [{ msg := "bare CR not allowed in block doc-comment", span := (4, 5) }]) := by
  constructor
  · intro contentStart content ck
    refine ⟨rfl, ?_, ?_⟩
    · simp [cookDocComment, crOffsets_length]
    · intro d hd
      simp only [cookDocComment, List.mem_map] at hd
      obtain ⟨idx, _, rfl⟩ := hd
      exact ⟨rfl, rfl⟩
  · rfl

/-- Witness for the doc-comment CR property: the single diagnostic of
`cookDocComment 4 " \r " block` has the block message and a one-byte
span. -/
theorem cookDocComment_spec_witness :
    ({ msg := "bare CR not allowed in block doc-comment", span := (5, 6) } : Diag).msg =
      "bare CR not allowed in " ++
        (if CommentKind.block = .block then "block " else "") ++ "doc-comment" ∧
    ({ msg := "bare CR not allowed in block doc-comment", span := (5, 6) } : Diag).span.2 =
      ({ msg := "bare CR not allowed in block doc-comment", span := (5, 6) } : Diag).span.1 + 1 :=
  (cookDocComment_spec.1 4 [' ', '\r', ' '] .block).2.2
    { msg := "bare CR not allowed in block doc-comment", span := (5, 6) } (by decide)

theorem glueKind_eof (k : TokenKind) : glueKind k .eof = none := by
  cases k
  case binOp op => cases op <;> rfl
  all_goals rfl

/-- Counterexample to claim C5 as stated: `/` lexes to the single token
`BinOp(Slash)`, `x` to the identifier `x`, and `// c\n` is a non-empty
whitespace-or-comment sequence (it lexes alone to no tokens and no
diagnostics) — yet lexing the concatenation `/// c\nx` does NOT yield
`[Slash, Ident x]`: the slash fuses with the comment into a doc line
comment. -/
theorem whitespace_barrier_counterexample :
    (lexStr "/").1 = [⟨.binOp .slash, (0, 1)⟩] ∧
    (lexStr "x").1 = [⟨.ident "x", (0, 1)⟩] ∧
    ("// c\n".toList ≠ [] ∧ lexStr "// c\n" = ([], [])) ∧
    (lexStr ("/" ++ "// c\n" ++ "x")).1.map Token.kind ≠
      [.binOp .slash, .ident "x"] := by
  exact ⟨rfl, rfl, ⟨by decide, rfl⟩, by decide⟩

/-- Claim C5, amended: glueing is only attempted when the new token is not
preceded by skipped whitespace or comments — `next_token` emits the
look-behind token untouched as soon as `bump` reports a whitespace gap; and
whenever the raw tokenization of `sa ++ w ++ sb` consists of the token `a`
covering exactly `sa`, a skipped gap covering exactly `w`, and the token
`b` covering exactly `sb`, lexing yields exactly `[a, b]`, never a glued
form. -/
theorem whitespace_barrier_amended :
    (∀ (st : LexState) (cur : Token),
      (bump st false 0).precededByWs = true →
      nextToken st cur =
        (cur, (bump st false 0).token, (bump st false 0).state, (bump st false 0).diags)) ∧
    (∀ (sa w sb : List Char) (a b : Token) (pw : Bool) (st₁ st₂ : LexState)
        (ds₁ ds₂ : List Diag),
      w ≠ [] →
      bump ⟨sa ++ w ++ sb, 0, false⟩ false 0 = ⟨a, pw, st₁, ds₁⟩ →
      a.kind ≠ .eof →
      st₁.rest = w ++ sb →
      bump st₁ false 0 = ⟨b, true, st₂, ds₂⟩ →
      b.kind ≠ .eof →
      st₂.rest = [] →
      (lexSrc (sa ++ w ++ sb)).1 = [a, b]) := by
  constructor
  · intro st cur h
    rw [nextToken]
    conv_lhs => rw [nextTokenLoop]
    simp only [h, if_true]
  · intro sa w sb a b pw st₁ st₂ ds₁ ds₂ hw h1 ha hrest₁ h2 hb hrest₂
    rcases st₂ with ⟨r₂, p₂, n₂⟩
    simp only at hrest₂
    subst hrest₂
    have hbump₂ : bump ⟨[], p₂, n₂⟩ false 0 =
        ⟨⟨.eof, (p₂, p₂)⟩, false, ⟨[], p₂, n₂⟩, []⟩ := rfl
    have hglue : ∀ t : Token, Token.glue t ⟨.eof, (p₂, p₂)⟩ = none := by
      intro t
      simp [Token.glue, glueKind_eof]
    have hnil : ∀ cur : Token, nextToken ⟨[], p₂, n₂⟩ cur =
        (cur, ⟨.eof, (p₂, p₂)⟩, ⟨[], p₂, n₂⟩, []) := by
      intro cur
      rw [nextToken]
      show nextTokenLoop cur (0 + 1) ⟨[], p₂, n₂⟩ = _
      conv_lhs => rw [nextTokenLoop]
      simp only [hbump₂, Bool.false_eq_true, if_false, hglue]
    have hnt₁ : nextToken st₁ a = (a, b, ⟨[], p₂, n₂⟩, ds₂) := by
      rw [nextToken]
      conv_lhs => rw [nextTokenLoop]
      simp only [h2, if_true]
    obtain ⟨m, hm⟩ : ∃ m, (sa ++ w ++ sb).length = m + 1 := by
      have hpos : 0 < (sa ++ w ++ sb).length := by
        rcases w with _ | ⟨c, w'⟩
        · exact absurd rfl hw
        · simp only [List.length_append, List.length_cons]; omega
      exact ⟨(sa ++ w ++ sb).length - 1, by omega⟩
    rw [lexSrc, h1]
    simp only
    rw [hm]
    conv_lhs => rw [lexLoop]
    rw [hnt₁]
    simp only [if_neg ha]
    conv_lhs => rw [lexLoop]
    rw [hnil b]
    simp only [if_neg hb]
    conv_lhs => rw [lexLoop]
    rw [hnil ⟨.eof, (p₂, p₂)⟩]
    simp

/-- Witness for the amended whitespace barrier: a whitespace-preceded
identifier is emitted without any glue attempt, and `"+" ++ " " ++ "+"`
lexes to the two separate plus tokens. -/
theorem whitespace_barrier_amended_witness :
    nextToken ⟨" x".toList, 0, false⟩ ⟨.ident "y", (0, 0)⟩ =
      (⟨.ident "y", (0, 0)⟩, ⟨.ident "x", (1, 2)⟩, ⟨[], 2, false⟩, []) ∧
    (lexSrc ("+".toList ++ " ".toList ++ "+".toList)).1 =
      [⟨.binOp .plus, (0, 1)⟩, ⟨.binOp .plus, (2, 3)⟩] :=
  ⟨whitespace_barrier_amended.1 ⟨" x".toList, 0, false⟩ ⟨.ident "y", (0, 0)⟩ rfl,
   whitespace_barrier_amended.2 "+".toList " ".toList "+".toList
     ⟨.binOp .plus, (0, 1)⟩ ⟨.binOp .plus, (2, 3)⟩ false
     ⟨" +".toList, 1, false⟩ ⟨[], 3, false⟩ [] []
     (by decide) rfl (by decide) rfl rfl (by decide) rfl⟩

/-- Claim C8: on an unknown raw token with `swallow = 0`, the lexer emits a
single diagnostic covering the entire run of `k` identical characters
(span `[pos, pos + k * size)`), with a "character repeats once more / N more
times" note when the run is longer than one, a UTF-8 help string when the
character is NUL, and continues after the whole run (the following `k - 1`
unknown tokens are swallowed silently); and a U+00A0 encountered while
`nbsp_is_whitespace` is already set is treated silently as whitespace. -/
theorem unknown_token_run :
    (∀ (c : Char) (k : Nat) (rest : List Char) (pos : Nat) (nbsp pws : Bool),
      (∀ cs, advanceCore c cs = (.unknown, 0)) →
      0 < k →
      rest.head? ≠ some c →
      (c = nbspChar → nbsp = false) →
      bump ⟨List.replicate k c ++ rest, pos, nbsp⟩ pws 0 =
        { token := (bump ⟨rest, pos + k * c.utf8Size,
            nbsp || decide (c = nbspChar)⟩ true 0).token
          precededByWs := (bump ⟨rest, pos + k * c.utf8Size,
            nbsp || decide (c = nbspChar)⟩ true 0).precededByWs
          state := (bump ⟨rest, pos + k * c.utf8Size,
            nbsp || decide (c = nbspChar)⟩ true 0).state
          diags :=
            { msg := "unknown start of token: " ++ escapedChar c
              span := (pos, pos + k * c.utf8Size)
              help :=
                if c = '\x00' then
                  some "source files must contain UTF-8 encoded text, unexpected null bytes might occur when a different encoding is used"
                else none
              note :=
                if 0 < k - 1 then
                  some ("character repeats " ++
                    (if k - 1 = 1 then "once more"
                     else toString (k - 1) ++ " more times"))
                else none } ::
              (bump ⟨rest, pos + k * c.utf8Size,
                nbsp || decide (c = nbspChar)⟩ true 0).diags }) ∧
    (∀ (rest : List Char) (pos : Nat) (pws : Bool),
      bump ⟨nbspChar :: rest, pos, true⟩ pws 0 =
        bump ⟨rest, pos + 2, true⟩ true 0) := by
  constructor
  · intro c k rest pos nbsp pws hc hk hhead hnb
    obtain ⟨m, rfl⟩ : ∃ m, k = m + 1 := ⟨k - 1, by omega⟩
    have hnb' : (decide (c = nbspChar) && nbsp) = false := by
      by_cases h : c = nbspChar
      · rw [hnb h]; simp
      · simp [h]
    rw [bump]
    have hlen : (⟨List.replicate (m + 1) c ++ rest, pos, nbsp⟩ : LexState).rest.length + 1 =
        ((rest.length + 1) + m) + 1 := by
      simp only [List.length_append, List.length_replicate]; omega
    rw [hlen]
    have hlist : (⟨List.replicate (m + 1) c ++ rest, pos, nbsp⟩ : LexState) =
        ⟨c :: (List.replicate m c ++ rest), pos, nbsp⟩ := by
      simp [List.replicate_succ]
    rw [hlist]
    rw [bumpF_unknown_step c (List.replicate m c ++ rest) pos nbsp pws
      ((rest.length + 1) + m) (hc _) hnb']
    rw [takeWhile_replicate_head c m rest hhead, List.length_replicate]
    rw [bumpF_swallow_run c hc m rest (pos + c.utf8Size) (nbsp || decide (c = nbspChar))
      true (rest.length + 1) m le_rfl]
    have h₁ : pos + c.utf8Size + m * c.utf8Size = pos + (m + 1) * c.utf8Size := by ring
    have h₂ : m - m = 0 := Nat.sub_self m
    have h₃ : m + 1 - 1 = m := by omega
    rw [h₁, h₂, h₃]
    simp only [bump]
  · intro rest pos pws
    have hc0 : advanceCore nbspChar rest = (.unknown, 0) := rfl
    rw [bump]
    show bumpF ((rest.length + 1) + 1) ⟨nbspChar :: rest, pos, true⟩ pws 0 = _
    conv_lhs => rw [bumpF]
    simp only [hc0, utf8Len_singleton, List.drop_succ_cons, List.drop_zero,
      List.take_succ_cons, List.take_zero, Nat.lt_irrefl, if_false]
    rw [if_pos (by simp)]
    rw [bump]
    show bumpF (rest.length + 1) ⟨rest, pos + nbspChar.utf8Size, true⟩ true 0 = _
    have h2 : nbspChar.utf8Size = 2 := by decide
    rw [h2]

/-- Witness for the unknown-token run: three `#` characters followed by
`a` yield one diagnostic spanning all three with a repeat note, then the
identifier; a non-breaking space after the flag is set is skipped
silently. -/
theorem unknown_token_run_witness :
    bump ⟨List.replicate 3 '#' ++ "a".toList, 0, false⟩ false 0 =
      { token := ⟨.ident "a", (3, 4)⟩
        precededByWs := true
        state := ⟨[], 4, false⟩
        diags := [{ msg := "unknown start of token: #", span := (0, 3),
                    note := some "character repeats 2 more times" }] } ∧
    bump ⟨nbspChar :: "b".toList, 5, true⟩ false 0 =
      bump ⟨"b".toList, 7, true⟩ true 0 :=
  ⟨(unknown_token_run.1 '#' 3 "a".toList 0 false false (fun _ => rfl) (by decide)
      (by decide) (by decide)).trans (by decide),
   unknown_token_run.2 "b".toList 5 false⟩

/-- Claim C9: `Sources::add_file` returns the existing id and leaves the
vector unchanged when an identity-equal handle is already present, and pushes
a fresh unparsed source otherwise; consequently, at every reachable state of
the driver no two entries of the source vector hold identity-equal file
handles. -/
theorem addFile_dedup_invariant :
    (∀ (sources : Sources) (file : Nat),
        (file ∈ files sources →
          addFile sources file = ((files sources).indexOf file, sources)) ∧
        (file ∉ files sources →
          addFile sources file = (sources.length, sources ++ [Source.new file]))) ∧
    (∀ sources : Sources, Reachable sources → (files sources).Nodup) := by
  constructor
  · intro sources file
    constructor
    · intro hmem
      have hne : (files sources).findIdx? (fun x => x == file) ≠ none := fun h => by
        simpa using List.findIdx?_eq_none_iff.mp h file hmem
      obtain ⟨j, hj⟩ := Option.ne_none_iff_exists'.mp hne
      have hfi := (List.findIdx?_eq_some_iff_findIdx_eq.mp hj).2
      have hidx : (files sources).indexOf file = j := hfi
      rw [addFile, findIdx?_file_files, hj, hidx]
    · intro hmem
      have hnone : (files sources).findIdx? (fun x => x == file) = none := by
        rw [List.findIdx?_eq_none_iff]
        intro x hx
        simp only [beq_eq_false_iff_ne, ne_eq]
        exact fun e => hmem (e ▸ hx)
      rw [addFile, findIdx?_file_files, hnone]
  · intro sources hr
    have hpush : ∀ (s : Sources) (file : Nat), (files s).Nodup → file ∉ files s →
        (files (s ++ [Source.new file])).Nodup := by
      intro s file hnd hnot
      have : files (s ++ [Source.new file]) = files s ++ [file] := by simp [files, Source.new]
      rw [this, List.nodup_append]
      exact ⟨hnd, List.nodup_singleton _, by simpa [List.disjoint_singleton] using hnot⟩
    induction hr with
    | empty => simp [files]
    | addFile file _ ih =>
      rename_i s _
      cases hfind : s.findIdx? (fun t => t.file == file) with
      | none =>
        have hnot := findIdx?_file_eq_none hfind
        have : (addFile s file).2 = s ++ [Source.new file] := by rw [addFile, hfind]
        rw [this]
        exact hpush s file ih hnot
      | some j =>
        have : (addFile s file).2 = s := by rw [addFile, hfind]
        rw [this]
        exact ih
    | addImport current importItemId file _ ih =>
      rename_i s _
      cases hfind : s.findIdx? (fun t => t.file == file) with
      | none =>
        have hnot := findIdx?_file_eq_none hfind
        have heq : addImport s current importItemId file =
            (s ++ [Source.new file]).modify
              (fun t => { t with imports := t.imports ++ [(importItemId, s.length)] }) current := by
          rw [addImport, addFile, hfind]
        rw [heq, files_modify (s ++ [Source.new file]) current
          (fun t => { t with imports := t.imports ++ [(importItemId, s.length)] }) (fun t => rfl)]
        exact hpush s file ih hnot
      | some j =>
        have heq : addImport s current importItemId file =
            s.modify (fun t => { t with imports := t.imports ++ [(importItemId, j)] }) current := by
          rw [addImport, addFile, hfind]
        rw [heq, files_modify s current
          (fun t => { t with imports := t.imports ++ [(importItemId, j)] }) (fun t => rfl)]
        exact ih
    | setAst current _ ih =>
      rw [setAst, files_modify _ current (fun t => { t with ast := some () }) (fun t => rfl)]
      exact ih

/-- Concrete instantiation of C9: adding file handles 5, 7, then 5 again
leaves a deduplicated two-source vector, and the invariant holds at this
reachable state. -/
theorem addFile_dedup_invariant_witness :
    (5 ∈ files (addFile (addFile [] 5).2 7).2 ∧
      addFile (addFile (addFile [] 5).2 7).2 5 =
        ((files (addFile (addFile [] 5).2 7).2).indexOf 5, (addFile (addFile [] 5).2 7).2)) ∧
    (files (addFile (addFile (addFile [] 5).2 7).2 5).2).Nodup :=
  ⟨⟨by decide, (addFile_dedup_invariant.1 _ 5).1 (by decide)⟩,
    addFile_dedup_invariant.2 _ (.addFile 5 (.addFile 7 (.addFile 5 .empty)))⟩

/-! ### Statement parser: AST and parser state

The statement grammar lives in `parser/stmt.rs`.  Its AST types
(`sulk_ast::ast`), token classification helpers (`sulk_ast::token`) and the
parser driver primitives (`eat`/`check`/`expect`/`look_ahead`, the
identifier, elementary-type, expression and variable-definition
sub-parsers) come from crates whose sources are not part of this
repository snapshot; those are modelled from the spec (§4.3), while
everything in `stmt.rs` itself is translated directly. -/

/-- Modelled from the spec (§4.3): the storage-location specifiers. -/
inductive DataLocation where
  | memory | storage | calldata
  deriving DecidableEq, Repr

/-- Modelled from the spec: an interned identifier with its span
(`sulk_interface::Ident`). -/
structure Ident where
  name : String
  span : Nat × Nat
  deriving DecidableEq, Repr

mutual

/-- Modelled from the spec: expressions (`sulk_ast::ast::Expr`), restricted
to the shapes the statement parser itself builds plus primary expressions. -/
inductive Expr where
  | mk (span : Nat × Nat) (kind : ExprKind)

/-- Modelled from the spec: expression kinds built by the statement parser. -/
inductive ExprKind where
  | identE (i : Ident)
  | lit (kind : LitKind) (sym : String)
  | member (e : Expr) (i : Ident)
  | indexE (e : Expr) (kind : IndexKind)
  | typeE (t : Ty)
  | tuple (parts : List (Option Expr))

/-- Modelled from the spec: the contents of a `[...]` index access —
either a plain (possibly omitted) index or a `l:r` range. -/
inductive IndexKind where
  | index (e : Option Expr)
  | range (l r : Option Expr)

/-- Modelled from the spec: a type with its span (`sulk_ast::ast::Ty`). -/
inductive Ty where
  | mk (span : Nat × Nat) (kind : TyKind)

/-- Modelled from the spec: type kinds — an elementary type (identified by
its symbol), a dotted path of identifiers, or an array
(`TyKind::Array(TypeArray { element, size })`, flattened). -/
inductive TyKind where
  | elementary (sym : String)
  | custom (path : List Ident)
  | array (element : Ty) (size : Option Expr)

end

def Expr.span : Expr → Nat × Nat
  | .mk sp _ => sp

def Expr.kind : Expr → ExprKind
  | .mk _ k => k

def Ty.span : Ty → Nat × Nat
  | .mk sp _ => sp

def Ty.kind : Ty → TyKind
  | .mk _ k => k

/-- Modelled from the spec (§4.3 step 4): a parsed variable definition —
type, optional storage location, name, optional initializer. -/
structure VariableDefinition where
  ty : Ty
  dataLocation : Option DataLocation
  name : Ident
  initializer : Option Expr

/-- The simple-statement kinds built by `parse_simple_stmt_kind`. -/
inductive StmtKind where
  | declSingle (v : VariableDefinition)
  | declMulti (vars : List (Option VariableDefinition)) (init : Expr)
  | expr (e : Expr)

/-- `LookAheadInfo` from `stmt.rs`. -/
inductive LookAheadInfo where
  | indexAccessStructure
  | variableDeclaration
  | expression
  deriving DecidableEq, Repr

/-- `IapKind` from `stmt.rs`: one component of an index-accessed path. -/
inductive IapKind where
  | index (span : Nat × Nat) (kind : IndexKind)
  | member (i : Ident)
  | memberTy (span : Nat × Nat) (kind : TyKind)

/-- `IndexAccessedPath` from `stmt.rs`. -/
structure IndexAccessedPath where
  path : List IapKind := []
  nIdents : Nat := 0

/-- A parser failure: an error diagnostic carried by `PResult::Err`, or a
Rust panic (`unreachable!`/`panic!`), which unwinds. -/
inductive PErr where
  | err (d : Diag)
  | panicMsg (s : String)

/-- Modelled from the spec: the parser state — the remaining cooked tokens,
the previous token, the Yul-mode flag, and the emitted (non-fatal)
diagnostics. -/
structure PState where
  toks : List Token
  prev : Token := ⟨.eof, (0, 0)⟩
  inYul : Bool := false
  diags : List Diag := []

/-- The result type of every parser function: `PResult` plus the updated
state. -/
abbrev P (α : Type) : Type := PState → Except PErr α × PState

/-- Modelled from the spec (§6): the reserved words of the language — a
representative table containing the keywords the statement parser
consults.  Elementary type names are reserved. -/
def reservedWords : List String :=
  ["if", "while", "do", "for", "unchecked", "continue", "break", "return",
   "throw", "try", "catch", "assembly", "emit", "new", "delete", "import",
   "contract", "pragma", "mapping", "function", "payable", "memory",
   "storage", "calldata", "address", "bool", "string", "bytes", "uint",
   "int", "uint8", "uint256", "int8", "int256", "bytes1", "bytes32",
   "fixed", "ufixed", "is", "struct", "enum", "event", "error", "modifier",
   "public", "private", "internal", "external", "pure", "view", "constant",
   "returns", "else"]

/-- Modelled from the spec: the elementary type names (a representative
table). -/
def isElementaryTypeName (s : String) : Bool :=
  s ∈ ["address", "bool", "string", "bytes", "uint", "int", "uint8",
    "uint256", "int8", "int256", "bytes1", "bytes32", "fixed", "ufixed"]

/-- Modelled from the spec: `Token::is_ident` projection. -/
def Token.identName : Token → Option String
  | ⟨.ident sym, _⟩ => some sym
  | _ => none

/-- Modelled from the spec: `Token::is_non_reserved_ident`. -/
def Token.isNonReservedIdent (t : Token) (inYul : Bool) : Bool :=
  match t.identName with
  | some sym => !(sym ∈ reservedWords) && !(inYul && sym ∈ ["leave", "let"])
  | none => false

/-- Modelled from the spec: `Token::is_location_specifier`
(`memory`/`storage`/`calldata`). -/
def Token.isLocationSpecifier (t : Token) : Bool :=
  match t.identName with
  | some sym => sym ∈ ["memory", "storage", "calldata"]
  | none => false

/-- Modelled from the spec: `Token::is_elementary_type`. -/
def Token.isElementaryType (t : Token) : Bool :=
  match t.identName with
  | some sym => isElementaryTypeName sym
  | none => false

/-- Modelled from the spec: `Token::is_ident_where(|id| id.name == k)`. -/
def Token.isIdentNamed (t : Token) (k : String) : Bool :=
  t.identName == some k

/-- Modelled from the spec: `Token::is_keyword_any`. -/
def Token.isKeywordAny (t : Token) (ks : List String) : Bool :=
  match t.identName with
  | some sym => sym ∈ ks
  | none => false

namespace Parser

/-- Modelled from the spec: the current token (`self.token`); a synthetic
EOF token at the end of the stream. -/
def token (s : PState) : Token :=
  s.toks.headD ⟨.eof, (s.prev.span.2, s.prev.span.2)⟩

/-- Modelled from the spec: `self.look_ahead(n)`. -/
def lookAhead (s : PState) (n : Nat) : Token :=
  (s.toks.get? n).getD ⟨.eof, (s.prev.span.2, s.prev.span.2)⟩

/-- Modelled from the spec: `self.bump()` — advance by one token. -/
def bump (s : PState) : PState :=
  match s.toks with
  | [] => s
  | t :: ts => { s with toks := ts, prev := t }

/-- Modelled from the spec: `self.check(&kind)` — peek without consuming. -/
def check (k : TokenKind) (s : PState) : Bool :=
  decide ((token s).kind = k)

/-- Modelled from the spec: `self.eat(&kind)` — consume iff it matches. -/
def eat (k : TokenKind) (s : PState) : Bool × PState :=
  if check k s then (true, bump s) else (false, s)

/-- Modelled from the spec: `self.expect(&kind)` — consume or fail with an
"expected token" diagnostic. -/
def expect (k : TokenKind) (s : PState) : Except PErr Unit × PState :=
  if check k s then (.ok (), bump s)
  else (.error (.err { msg := "expected token", span := (token s).span }), s)

/-- Modelled from the spec: `self.parse_spanned(f)` — the span from the
first token of `f`'s input to the last token `f` consumed. -/
def parseSpanned (f : P α) : P ((Nat × Nat) × α) := fun s =>
  let lo := (token s).span.1
  match f s with
  | (.ok a, s') => (.ok ((lo, s'.prev.span.2), a), s')
  | (.error e, s') => (.error e, s')

/-- Modelled from the spec: `self.parse_ident()` — a non-reserved
identifier. -/
def parseIdent : P Ident := fun s =>
  match h : (token s).identName with
  | some sym =>
    if (token s).isNonReservedIdent s.inYul then
      (.ok ⟨sym, (token s).span⟩, bump s)
    else (.error (.err { msg := "expected identifier", span := (token s).span }), s)
  | none => (.error (.err { msg := "expected identifier", span := (token s).span }), s)

/-- Modelled from the spec: `self.ident_or_err(..)` — the current token as
an identifier (reserved or not), not yet consumed. -/
def identOrErr (s : PState) : Except PErr Ident × PState :=
  match (token s).identName with
  | some sym => (.ok ⟨sym, (token s).span⟩, s)
  | none => (.error (.err { msg := "expected identifier", span := (token s).span }), s)

/-- Modelled from the spec: `self.parse_elementary_type()`. -/
def parseElementaryType : P TyKind := fun s =>
  match (token s).identName with
  | some sym =>
    if isElementaryTypeName sym then (.ok (.elementary sym), bump s)
    else (.error (.err { msg := "expected elementary type", span := (token s).span }), s)
  | none => (.error (.err { msg := "expected elementary type", span := (token s).span }), s)

/-- Modelled from the spec: a primary expression — an identifier, a
literal, or an elementary type used in expression position. -/
def parsePrimaryExpr : P Expr := fun s =>
  match (token s).kind with
  | .ident sym =>
    if isElementaryTypeName sym then
      (.ok (.mk (token s).span (.typeE (.mk (token s).span (.elementary sym)))), bump s)
    else (.ok (.mk (token s).span (.identE ⟨sym, (token s).span⟩)), bump s)
  | .literal k sym => (.ok (.mk (token s).span (.lit k sym)), bump s)
  | _ => (.error (.err { msg := "expected expression", span := (token s).span }), s)

/-- Modelled from the spec (§4.3 step 4): `self.parse_expr_with(prefix)` —
continue an expression on top of an already-parsed prefix; without a
prefix, parse a primary expression.  Operator and postfix layers of the
expression grammar are outside the statement parser and are not modelled. -/
def parseExprWith (pre : Option Expr) : P Expr := fun s =>
  match pre with
  | some e => (.ok e, s)
  | none => parsePrimaryExpr s

/-- Modelled from the spec: `self.parse_expr()`. -/
def parseExpr : P Expr :=
  parseExprWith none

/-- Modelled from the spec: `self.parse_expr_index_kind()` — the contents
of one `[...]` group: empty, a single index expression, or an `l:r` range
with either bound optional. -/
def parseExprIndexKind : P IndexKind := fun s =>
  match expect (.openDelim .bracket) s with
  | (.error e, s') => (.error e, s')
  | (.ok _, s₁) =>
    if check (.closeDelim .bracket) s₁ then
      (.ok (.index none), bump s₁)
    else if check .colon s₁ then
      let s₂ := bump s₁
      if check (.closeDelim .bracket) s₂ then (.ok (.range none none), bump s₂)
      else
        match parseExpr s₂ with
        | (.error e, s') => (.error e, s')
        | (.ok r, s₃) =>
          match expect (.closeDelim .bracket) s₃ with
          | (.error e, s') => (.error e, s')
          | (.ok _, s₄) => (.ok (.range none (some r)), s₄)
    else
      match parseExpr s₁ with
      | (.error e, s') => (.error e, s')
      | (.ok l, s₂) =>
        if check .colon s₂ then
          let s₃ := bump s₂
          if check (.closeDelim .bracket) s₃ then (.ok (.range (some l) none), bump s₃)
          else
            match parseExpr s₃ with
            | (.error e, s') => (.error e, s')
            | (.ok r, s₄) =>
              match expect (.closeDelim .bracket) s₄ with
              | (.error e, s') => (.error e, s')
              | (.ok _, s₅) => (.ok (.range (some l) (some r)), s₅)
        else
          match expect (.closeDelim .bracket) s₂ with
          | (.error e, s') => (.error e, s')
          | (.ok _, s₃) => (.ok (.index (some l)), s₃)

/-- Modelled from the spec: a minimal `self.parse_type()` — an elementary
type with its span (the statement-level claims never reach the full type
grammar through this path). -/
def parseType : P Ty := fun s =>
  match parseSpanned parseElementaryType s with
  | (.ok (sp, k), s') => (.ok (.mk sp k), s')
  | (.error e, s') => (.error e, s')

end Parser

/-- Modelled from the spec: the two variable-definition flag sets the
statement parser uses (`VarFlags::VAR` for single declarations, which may
carry an initializer, and `VarFlags::FUNCTION` for tuple components). -/
inductive VarFlags where
  | var | function
  deriving DecidableEq, Repr

/-- Modelled from the spec: `Ident::is_reserved`. -/
def Ident.isReserved (id : Ident) (inYul : Bool) : Bool :=
  id.name ∈ reservedWords || (inYul && id.name ∈ ["leave", "let"])

namespace Parser

/-- Modelled from the spec (§4.3 step 4): `parse_variable_definition_with`
— use the given type (or parse one), then an optional storage location,
the variable name, and (for `VarFlags::VAR`) an optional `= expr`
initializer. -/
def parseVariableDefinitionWith (flags : VarFlags) (tyIn : Option Ty) :
    P VariableDefinition := fun s =>
  let (tyE, s₁) :=
    match tyIn with
    | some t => (Except.ok t, s)
    | none => parseType s
  match tyE with
  | .error e => (.error e, s₁)
  | .ok ty =>
    let (loc, s₂) :=
      if (token s₁).isLocationSpecifier then
        (match (token s₁).identName with
         | some "memory" => some DataLocation.memory
         | some "storage" => some DataLocation.storage
         | some "calldata" => some DataLocation.calldata
         | _ => none, bump s₁)
      else (none, s₁)
    match parseIdent s₂ with
    | (.error e, s') => (.error e, s')
    | (.ok name, s₃) =>
      if flags = VarFlags.var then
        match eat .eq s₃ with
        | (true, s₄) =>
          match parseExpr s₄ with
          | (.error e, s') => (.error e, s')
          | (.ok init, s₅) => (.ok ⟨ty, loc, name, some init⟩, s₅)
        | (false, s₄) => (.ok ⟨ty, loc, name, none⟩, s₄)
      else (.ok ⟨ty, loc, name, none⟩, s₃)

/-- `Parser::parse_variable_definition`. -/
def parseVariableDefinition (flags : VarFlags) : P VariableDefinition :=
  parseVariableDefinitionWith flags none

/-- The leading-comma loop of `parse_simple_stmt_kind`:
`while self.eat(&TokenKind::Comma) { empty_components += 1 }`. -/
def countCommas : Nat → PState → Nat × PState
  | 0, s => (0, s)
  | fuel + 1, s =>
    match eat .comma s with
    | (true, s') =>
      let (n, s'') := countCommas fuel s'
      (n + 1, s'')
    | (false, s') => (0, s')

/-- The leading-comma loop of `parse_optional_items_seq`:
`while self.eat(&TokenKind::Comma) { out.push(None) }`. -/
def leadCommas {α : Type} : Nat → List (Option α) → PState → List (Option α) × PState
  | 0, out, s => (out, s)
  | fuel + 1, out, s =>
    match eat .comma s with
    | (true, s') => leadCommas fuel (out ++ [none]) s'
    | (false, s') => (out, s')

/-- `Parser::parse_optional_items_seq_required`: keep the accumulated
slots, reading `, item?` groups until the closing delimiter is eaten. -/
def parseOptionalItemsSeqRequired (delim : Delimiter) (f : P α) :
    Nat → List (Option α) → PState → Except PErr (List (Option α)) × PState
  | 0, _, s => (.error (.panicMsg "out of fuel"), s)
  | fuel + 1, out, s =>
    match eat (.closeDelim delim) s with
    | (true, s') => (.ok out, s')
    | (false, s₀) =>
      match expect .comma s₀ with
      | (.error e, s') => (.error e, s')
      | (.ok _, s₁) =>
        if check .comma s₁ || check (.closeDelim delim) s₁ then
          parseOptionalItemsSeqRequired delim f fuel (out ++ [none]) s₁
        else
          match f s₁ with
          | (.error e, s') => (.error e, s')
          | (.ok a, s₂) => parseOptionalItemsSeqRequired delim f fuel (out ++ [some a]) s₂

/-- `Parser::parse_optional_items_seq`: expect the opening delimiter, push
one `None` per leading comma, parse the first item unless the closing
delimiter follows, then hand off to the required-sequence loop. -/
def parseOptionalItemsSeq (delim : Delimiter) (f : P α) :
    P (List (Option α)) := fun s =>
  match expect (.openDelim delim) s with
  | (.error e, s') => (.error e, s')
  | (.ok _, s₁) =>
    let (out₀, s₂) := leadCommas (s₁.toks.length + 1) [] s₁
    if !(check (.closeDelim delim) s₂) then
      match f s₂ with
      | (.error e, s') => (.error e, s')
      | (.ok a, s₃) =>
        parseOptionalItemsSeqRequired delim f (s₃.toks.length + 1) (out₀ ++ [some a]) s₃
    else
      parseOptionalItemsSeqRequired delim f (s₂.toks.length + 1) out₀ s₂

/-- Modelled from the spec: `self.check_nr_ident()`. -/
def checkNrIdent (s : PState) : Bool :=
  (token s).isNonReservedIdent s.inYul

/-- `Parser::peek_statement_type`. -/
def peekStatementType (s : PState) : LookAheadInfo :=
  if (token s).isKeywordAny ["mapping", "function"] then .variableDeclaration
  else if checkNrIdent s || (token s).isElementaryType then
    let next := lookAhead s 1
    if (token s).isElementaryType && next.isIdentNamed "payable" then .variableDeclaration
    else if next.isNonReservedIdent s.inYul || next.isLocationSpecifier then
      .variableDeclaration
    else if next.kind = .openDelim .bracket ∨ next.kind = .dot then .indexAccessStructure
    else .expression
  else .expression

/-- The dotted-member loop of `parse_iap`: `while self.eat(&Dot)` take the
next identifier (emitting, but not failing on, a reserved non-`address`
name) and push it as a member. -/
def parseIapDots : Nat → List IapKind → P (List IapKind)
  | 0, _, s => (.error (.panicMsg "out of fuel"), s)
  | fuel + 1, acc, s =>
    match eat .dot s with
    | (false, s') => (.ok acc, s')
    | (true, s₁) =>
      match identOrErr s₁ with
      | (.error e, s') => (.error e, s')
      | (.ok id, s₂) =>
        let s₃ :=
          if id.name ≠ "address" ∧ id.isReserved s₂.inYul then
            { s₂ with diags := s₂.diags ++
              [{ msg := "expected identifier", span := id.span }] }
          else s₂
        parseIapDots fuel (acc ++ [.member id]) (bump s₃)

/-- The bracket loop of `parse_iap`: while the current token is `[`, parse
one spanned index group and push it. -/
def parseIapBrackets : Nat → List IapKind → P (List IapKind)
  | 0, _, s => (.error (.panicMsg "out of fuel"), s)
  | fuel + 1, acc, s =>
    if check (.openDelim .bracket) s then
      match parseSpanned parseExprIndexKind s with
      | (.error e, s') => (.error e, s')
      | (.ok (sp, k), s') => parseIapBrackets fuel (acc ++ [.index sp k]) s'
    else (.ok acc, s)

/-- `Parser::parse_iap`. -/
def parseIap : P IndexAccessedPath := fun s =>
  let (headE, s₁) :=
    if checkNrIdent s then
      match parseIdent s with
      | (.error e, s') => (Except.error e, s')
      | (.ok id, s') => parseIapDots (s'.toks.length + 1) [IapKind.member id] s'
    else
      match parseSpanned parseElementaryType s with
      | (.error e, s') => (Except.error e, s')
      | (.ok (sp, k), s') => (Except.ok [IapKind.memberTy sp k], s')
  match headE with
  | .error e => (.error e, s₁)
  | .ok path =>
    let nIdents := path.length
    match parseIapBrackets (s₁.toks.length + 1) path s₁ with
    | (.error e, s₂) => (.error e, s₂)
    | (.ok fullPath, s₂) => (.ok ⟨fullPath, nIdents⟩, s₂)

/-- `Parser::try_parse_iap`. -/
def tryParseIap : P (LookAheadInfo × IndexAccessedPath) := fun s =>
  match peekStatementType s with
  | .variableDeclaration => (.ok (.variableDeclaration, {}), s)
  | .expression => (.ok (.expression, {}), s)
  | .indexAccessStructure =>
    match parseIap s with
    | (.error e, s') => (.error e, s')
    | (.ok iap, s') =>
      if (token s').isNonReservedIdent s'.inYul || (token s').isLocationSpecifier then
        (.ok (.variableDeclaration, iap), s')
      else (.ok (.expression, iap), s')

end Parser

/-- The leading members of a path, provided they are all `IapKind::Member`
(the `unreachable!` of the collecting map in `into_ty` otherwise). -/
def membersPrefix : List IapKind → Option (List Ident)
  | [] => some []
  | .member id :: rest => (membersPrefix rest).map (id :: ·)
  | _ => none

/-- `Path::span` of a non-empty identifier path: from the first to the
last identifier. -/
def pathSpanOf : List Ident → Nat × Nat
  | [] => (0, 0)
  | id :: rest => (id.span.1, (rest.getLastD id).span.2)

/-- The index-wrapping loop of `IndexAccessedPath::into_ty`: each trailing
`IapKind::Index` wraps the type as `Array(elem, size)`; a range index
emits the "expected array length" error and keeps `l.or(r)` as the size;
any non-index component panics ("parsed too much"). -/
def IndexAccessedPath.intoTyLoop :
    List IapKind → Ty → PState → Except PErr (Option Ty) × PState
  | [], ty, s => (.ok (some ty), s)
  | .index sp kind :: rest, ty, s =>
    let (size, s') :=
      match kind with
      | .index e => (e, s)
      | .range l r =>
        (l.or r, { s with diags := s.diags ++
          [{ msg := "expected array length, got range expression", span := sp }] })
    IndexAccessedPath.intoTyLoop rest (.mk (ty.span.1, sp.2) (.array ty size)) s'
  | _ :: _, _, s => (.error (.panicMsg "parsed too much"), s)

/-- `IndexAccessedPath::into_ty`. -/
def IndexAccessedPath.intoTy (iap : IndexAccessedPath) :
    PState → Except PErr (Option Ty) × PState := fun s =>
  match iap.path with
  | [] => (.ok none, s)
  | first :: _ =>
    match first with
    | .memberTy sp kind =>
      IndexAccessedPath.intoTyLoop (iap.path.drop iap.nIdents) (.mk sp kind) s
    | _ =>
      match membersPrefix (iap.path.take iap.nIdents) with
      | some ids =>
        IndexAccessedPath.intoTyLoop (iap.path.drop iap.nIdents)
          (.mk (pathSpanOf ids) (.custom ids)) s
      | none => (.error (.panicMsg "unreachable"), s)

/-- The member/index folding loop of `IndexAccessedPath::into_expr`. -/
def IndexAccessedPath.intoExprLoop : List IapKind → Expr → Except PErr Expr
  | [], e => .ok e
  | .member id :: rest, e =>
    IndexAccessedPath.intoExprLoop rest (.mk (e.span.1, id.span.2) (.member e id))
  | .index sp kind :: rest, e =>
    IndexAccessedPath.intoExprLoop rest (.mk (e.span.1, sp.2) (.indexE e kind))
  | .memberTy _ _ :: _, _ => .error (.panicMsg "should not happen")

/-- `IndexAccessedPath::into_expr`. -/
def IndexAccessedPath.intoExpr (iap : IndexAccessedPath) :
    PState → Except PErr (Option Expr) × PState := fun s =>
  match iap.path with
  | [] => (.ok none, s)
  | first :: rest =>
    let headE : Except PErr Expr :=
      match first with
      | .member id => .ok (.mk id.span (.identE id))
      | .memberTy sp kind => .ok (.mk sp (.typeE (.mk sp kind)))
      | .index _ _ => .error (.panicMsg "should not happen")
    match headE with
    | .error e => (.error e, s)
    | .ok e₀ =>
      match IndexAccessedPath.intoExprLoop rest e₀ with
      | .ok e => (.ok (some e), s)
      | .error e => (.error e, s)

namespace Parser

/-- `Parser::parse_simple_stmt_kind`, with the two
`LookAheadInfo::IndexAccessStructure => unreachable!()` arms abstracted as
parameters (the parenthesized and the unparenthesized case). -/
def parseSimpleStmtKindWith (iasParen iasNoParen : P StmtKind) : P StmtKind := fun s =>
  let lo := (token s).span
  match eat (.openDelim .paren) s with
  | (true, s₁) =>
    let (emptyComponents, s₂) := countCommas (s₁.toks.length + 1) s₁
    match tryParseIap s₂ with
    | (.error e, s') => (.error e, s')
    | (.ok (statementType, iap), s₃) =>
      match statementType with
      | .variableDeclaration =>
        match iap.intoTy s₃ with
        | (.error e, s') => (.error e, s')
        | (.ok ty, s₄) =>
          match parseVariableDefinitionWith .function ty s₄ with
          | (.error e, s') => (.error e, s')
          | (.ok vd, s₅) =>
            match parseOptionalItemsSeqRequired .paren (parseVariableDefinition .function)
                (s₅.toks.length + 1) (List.replicate emptyComponents none ++ [some vd]) s₅ with
            | (.error e, s') => (.error e, s')
            | (.ok vars, s₆) =>
              match expect .eq s₆ with
              | (.error e, s') => (.error e, s')
              | (.ok _, s₇) =>
                match parseExpr s₇ with
                | (.error e, s') => (.error e, s')
                | (.ok ex, s₈) => (.ok (.declMulti vars ex), s₈)
      | .expression =>
        match iap.intoExpr s₃ with
        | (.error e, s') => (.error e, s')
        | (.ok pre, s₄) =>
          match parseExprWith pre s₄ with
          | (.error e, s') => (.error e, s')
          | (.ok e₁, s₅) =>
            match parseOptionalItemsSeqRequired .paren parseExpr
                (s₅.toks.length + 1) (List.replicate emptyComponents none ++ [some e₁]) s₅ with
            | (.error e, s') => (.error e, s')
            | (.ok components, s₆) =>
              let partiallyParsed : Expr := .mk (lo.1, s₆.prev.span.2) (.tuple components)
              match parseExprWith (some partiallyParsed) s₆ with
              | (.error e, s') => (.error e, s')
              | (.ok ex, s₇) => (.ok (.expr ex), s₇)
      | .indexAccessStructure => iasParen s₃
  | (false, s₀) =>
    match tryParseIap s₀ with
    | (.error e, s') => (.error e, s')
    | (.ok (statementType, iap), s₁) =>
      match statementType with
      | .variableDeclaration =>
        match iap.intoTy s₁ with
        | (.error e, s') => (.error e, s')
        | (.ok ty, s₂) =>
          match parseVariableDefinitionWith .var ty s₂ with
          | (.error e, s') => (.error e, s')
          | (.ok vd, s₃) => (.ok (.declSingle vd), s₃)
      | .expression =>
        match iap.intoExpr s₁ with
        | (.error e, s') => (.error e, s')
        | (.ok pre, s₂) =>
          match parseExprWith pre s₂ with
          | (.error e, s') => (.error e, s')
          | (.ok ex, s₃) => (.ok (.expr ex), s₃)
      | .indexAccessStructure => iasNoParen s₁

/-- `Parser::parse_simple_stmt_kind` proper: both index-access-structure
arms are `unreachable!()`. -/
def parseSimpleStmtKind : P StmtKind :=
  parseSimpleStmtKindWith (fun s => (.error (.panicMsg "unreachable"), s))
    (fun s => (.error (.panicMsg "unreachable"), s))

end Parser

/-! ### Statement parser claims -/

/-- Claim C1: the slot law of `parse_optional_items_seq`.  The embedded
function (running on the real lexer's tokens, with `parse_ident` as the
item parser) yields `[]` for `"()"` and correct slot lists whenever some
item is present — but for `"(,)"` it yields ONE `None` slot, not the two
slots (commas + 1) the claim requires, and for `"(,,)"` two instead of
three: the close delimiter right after the leading-comma loop is eaten by
the required-sequence loop before the final empty slot is pushed. -/
theorem parseOptionalItemsSeq_empty_slots :
    (Parser.parseOptionalItemsSeq .paren Parser.parseIdent
        ⟨(lexStr "()").1, ⟨.eof, (0, 0)⟩, false, []⟩).1 = .ok [] ∧
    (Parser.parseOptionalItemsSeq .paren Parser.parseIdent
        ⟨(lexStr "(,)").1, ⟨.eof, (0, 0)⟩, false, []⟩).1 = .ok [none] ∧
    (Parser.parseOptionalItemsSeq .paren Parser.parseIdent
        ⟨(lexStr "(,,)").1, ⟨.eof, (0, 0)⟩, false, []⟩).1 = .ok [none, none] ∧
    (Parser.parseOptionalItemsSeq .paren Parser.parseIdent
        ⟨(lexStr "(,b)").1, ⟨.eof, (0, 0)⟩, false, []⟩).1 =
      .ok [none, some ⟨"b", (2, 3)⟩] ∧
    (Parser.parseOptionalItemsSeq .paren Parser.parseIdent
        ⟨(lexStr "(a,)").1, ⟨.eof, (0, 0)⟩, false, []⟩).1 =
      .ok [some ⟨"a", (1, 2)⟩, none] ∧
    (Parser.parseOptionalItemsSeq .paren Parser.parseIdent
        ⟨(lexStr "(a,,c)").1, ⟨.eof, (0, 0)⟩, false, []⟩).1 =
      .ok [some ⟨"a", (1, 2)⟩, none, some ⟨"c", (4, 5)⟩] :=
  ⟨rfl, rfl, rfl, rfl, rfl, rfl⟩

theorem tryParseIap_ok_shape (s s' : PState) (la : LookAheadInfo)
    (iap : IndexAccessedPath)
    (h : Parser.tryParseIap s = (.ok (la, iap), s')) :
    la = .variableDeclaration ∨ la = .expression := by
  rw [Parser.tryParseIap] at h
  cases hpeek : Parser.peekStatementType s
  · rcases hpi : Parser.parseIap s with ⟨r, s₀⟩
    rcases r with e | iap₀
    · simp [hpeek, hpi] at h
    · by_cases hcond : ((Parser.token s₀).isNonReservedIdent s₀.inYul ||
          (Parser.token s₀).isLocationSpecifier) = true
      · simp only [hpeek, hpi, hcond, if_true] at h
        simp only [Prod.mk.injEq, Except.ok.injEq] at h
        exact Or.inl h.1.1.symm
      · have hc : ((Parser.token s₀).isNonReservedIdent s₀.inYul ||
            (Parser.token s₀).isLocationSpecifier) = false := by
          rcases hb : ((Parser.token s₀).isNonReservedIdent s₀.inYul ||
            (Parser.token s₀).isLocationSpecifier) with _ | _
          · rfl
          · exact absurd hb hcond
        simp only [hpeek, hpi, hc, Bool.false_eq_true, if_false] at h
        simp only [Prod.mk.injEq, Except.ok.injEq] at h
        exact Or.inr h.1.1.symm
  · simp only [hpeek, Prod.mk.injEq, Except.ok.injEq] at h
    exact Or.inl h.1.1.symm
  · simp only [hpeek, Prod.mk.injEq, Except.ok.injEq] at h
    exact Or.inr h.1.1.symm

/-- Claim C10: `try_parse_iap` never returns
`LookAheadInfo::IndexAccessStructure`, and consequently
`parse_simple_stmt_kind` computes the same result whatever the two
`unreachable!()` arms for that variant would do — they are never
executed. -/
theorem parse_simple_stmt_ias_unreachable :
    (∀ (s s' : PState) (la : LookAheadInfo) (iap : IndexAccessedPath),
      Parser.tryParseIap s = (.ok (la, iap), s') → la ≠ .indexAccessStructure) ∧
    (∀ (a₁ a₂ b₁ b₂ : P StmtKind) (s : PState),
      Parser.parseSimpleStmtKindWith a₁ b₁ s = Parser.parseSimpleStmtKindWith a₂ b₂ s) := by
  constructor
  · intro s s' la iap h hla
    rcases tryParseIap_ok_shape s s' la iap h with h' | h' <;> rw [hla] at h' <;> cases h'
  · intro a₁ a₂ b₁ b₂ s
    rw [Parser.parseSimpleStmtKindWith, Parser.parseSimpleStmtKindWith]
    rcases heat : Parser.eat (.openDelim .paren) s with ⟨b, s₁⟩
    cases b
    · simp only [heat]
      rcases htp : Parser.tryParseIap s₁ with ⟨r, s₂⟩
      rcases r with e | ⟨la, iap⟩
      · simp [htp]
      · cases la
        · rcases tryParseIap_ok_shape s₁ s₂ .indexAccessStructure iap htp with h' | h' <;>
            cases h'
        · simp [htp]
        · simp [htp]
    · simp only [heat]
      rcases hcc : Parser.countCommas (s₁.toks.length + 1) s₁ with ⟨n, s₂⟩
      simp only [hcc]
      rcases htp : Parser.tryParseIap s₂ with ⟨r, s₃⟩
      rcases r with e | ⟨la, iap⟩
      · simp [htp]
      · cases la
        · rcases tryParseIap_ok_shape s₂ s₃ .indexAccessStructure iap htp with h' | h' <;>
            cases h'
        · simp [htp]
        · simp [htp]

/-- Witness for C10 at a concrete token stream: classifying the literal
statement `1` yields `Expression` (not `IndexAccessStructure`), and
`parse_simple_stmt_kind` on the tokens of `x = y` is untouched by swapping
the contents of the two unreachable arms. -/
theorem parse_simple_stmt_ias_unreachable_witness :
    LookAheadInfo.expression ≠ .indexAccessStructure ∧
    Parser.parseSimpleStmtKindWith (fun s => (.error (.panicMsg "A"), s))
        (fun s => (.error (.panicMsg "B"), s))
        ⟨(lexStr "x = y").1, ⟨.eof, (0, 0)⟩, false, []⟩ =
      Parser.parseSimpleStmtKindWith (fun s => (.ok (.expr (.mk (0, 0) (.tuple []))), s))
        (fun s => (.error (.panicMsg "C"), s))
        ⟨(lexStr "x = y").1, ⟨.eof, (0, 0)⟩, false, []⟩ :=
  ⟨parse_simple_stmt_ias_unreachable.1 ⟨(lexStr "1").1, ⟨.eof, (0, 0)⟩, false, []⟩
      ⟨(lexStr "1").1, ⟨.eof, (0, 0)⟩, false, []⟩ .expression {} rfl,
   parse_simple_stmt_ias_unreachable.2 (fun s => (.error (.panicMsg "A"), s))
      (fun s => (.ok (.expr (.mk (0, 0) (.tuple []))), s))
      (fun s => (.error (.panicMsg "B"), s)) (fun s => (.error (.panicMsg "C"), s))
      ⟨(lexStr "x = y").1, ⟨.eof, (0, 0)⟩, false, []⟩⟩

/-- Claim C3: after `try_parse_iap` actually parses an index-accessed path
(the peeked type was ambiguous), the statement is classified as a variable
declaration exactly when the follow token is a non-reserved identifier or
a storage-location specifier; and on the lexed tokens of
`uint256[] memory x = y;` the simple-statement parser produces
`DeclSingle` with type `Array(uint256, None)`, location `memory`, name
`x` and initializer `y`. -/
theorem iap_classification :
    (∀ (s s' : PState) (la : LookAheadInfo) (iap : IndexAccessedPath),
      Parser.peekStatementType s = .indexAccessStructure →
      Parser.tryParseIap s = (.ok (la, iap), s') →
      (la = .variableDeclaration ↔
        ((Parser.token s').isNonReservedIdent s'.inYul ||
          (Parser.token s').isLocationSpecifier) = true)) ∧
    (Parser.parseSimpleStmtKind
        ⟨(lexStr "uint256[] memory x = y;").1, ⟨.eof, (0, 0)⟩, false, []⟩).1 =
      .ok (.declSingle ⟨.mk (0, 9) (.array (.mk (0, 7) (.elementary "uint256")) none),
        some .memory, ⟨"x", (17, 18)⟩,
        some (.mk (21, 22) (.identE ⟨"y", (21, 22)⟩))⟩) := by
  constructor
  · intro s s' la iap hpeek h
    rw [Parser.tryParseIap] at h
    rcases hpi : Parser.parseIap s with ⟨r, s₀⟩
    rcases r with e | iap₀
    · simp [hpeek, hpi] at h
    · by_cases hcond : ((Parser.token s₀).isNonReservedIdent s₀.inYul ||
          (Parser.token s₀).isLocationSpecifier) = true
      · simp only [hpeek, hpi, hcond, if_true] at h
        simp only [Prod.mk.injEq, Except.ok.injEq] at h
        obtain ⟨⟨hla, _⟩, hs⟩ := h
        rw [← hla, ← hs]
        simp [hcond]
      · have hc : ((Parser.token s₀).isNonReservedIdent s₀.inYul ||
            (Parser.token s₀).isLocationSpecifier) = false := by
          rcases hb : ((Parser.token s₀).isNonReservedIdent s₀.inYul ||
            (Parser.token s₀).isLocationSpecifier) with _ | _
          · rfl
          · exact absurd hb hcond
        simp only [hpeek, hpi, hc, Bool.false_eq_true, if_false] at h
        simp only [Prod.mk.injEq, Except.ok.injEq] at h
        obtain ⟨⟨hla, _⟩, hs⟩ := h
        rw [← hla, ← hs]
        simp [hc]
  · rfl

/-- Witness for the IAP classification on the tokens of `a.b c`: the peek
defers to IAP parsing, the parsed path is `a.b` with follow token `c` (a
non-reserved identifier), and the classification is a variable
declaration. -/
theorem iap_classification_witness :
    (LookAheadInfo.variableDeclaration = .variableDeclaration ↔
      ((Parser.token ⟨[⟨.ident "c", (4, 5)⟩], ⟨.ident "b", (2, 3)⟩, false, []⟩).isNonReservedIdent
          false ||
        (Parser.token
          ⟨[⟨.ident "c", (4, 5)⟩], ⟨.ident "b", (2, 3)⟩, false, []⟩).isLocationSpecifier) =
        true) :=
  iap_classification.1 ⟨(lexStr "a.b c").1, ⟨.eof, (0, 0)⟩, false, []⟩
    ⟨[⟨.ident "c", (4, 5)⟩], ⟨.ident "b", (2, 3)⟩, false, []⟩ .variableDeclaration
    ⟨[.member ⟨"a", (0, 1)⟩, .member ⟨"b", (2, 3)⟩], 2⟩ rfl rfl

/-- The array size `into_ty` keeps for one index group: the index
expression itself, or — for a range — the lower bound, falling back to the
upper bound (`l.or(r)`). -/
def indexSize : IndexKind → Option Expr
  | .index e => e
  | .range l r => l.or r

/-- The diagnostics `into_ty` emits for a list of index groups: one
"expected array length, got range expression" error per range-style
index, at the index group's span. -/
def rangeDiags : List ((Nat × Nat) × IndexKind) → List Diag
  | [] => []
  | (sp, k) :: rest =>
    (match k with
     | .range _ _ => [{ msg := "expected array length, got range expression", span := sp }]
     | _ => []) ++ rangeDiags rest

/-- The type `into_ty` builds: each index group wraps the element type as
`Array(elem, size)`, extending the span to the group's end. -/
def wrapArrays (base : Ty) : List ((Nat × Nat) × IndexKind) → Ty
  | [] => base
  | (sp, k) :: rest => wrapArrays (.mk (base.span.1, sp.2) (.array base (indexSize k))) rest

theorem membersPrefix_map (ids : List Ident) :
    membersPrefix (ids.map .member) = some ids := by
  induction ids with
  | nil => rfl
  | cons a t ih => simp [membersPrefix, ih]

theorem intoTyLoop_map (idxs : List ((Nat × Nat) × IndexKind)) :
    ∀ (ty : Ty) (s : PState),
      IndexAccessedPath.intoTyLoop (idxs.map fun p => .index p.1 p.2) ty s =
        (.ok (some (wrapArrays ty idxs)),
          { s with diags := s.diags ++ rangeDiags idxs }) := by
  induction idxs with
  | nil => intro ty s; simp [IndexAccessedPath.intoTyLoop, wrapArrays, rangeDiags]
  | cons p rest ih =>
    intro ty s
    rcases p with ⟨sp, k⟩
    cases k with
    | index e =>
      simp only [List.map_cons, IndexAccessedPath.intoTyLoop, wrapArrays, rangeDiags,
        indexSize, ih, List.nil_append]
    | range l r =>
      simp only [List.map_cons, IndexAccessedPath.intoTyLoop, wrapArrays, rangeDiags,
        indexSize, ih, List.append_assoc, List.singleton_append]

/-- Claim C7: materializing an index-accessed path as a declaration type
wraps the base type (given by a single elementary type or by the
`n_idents` leading path members) as `Array(elem, size)` once per trailing
index group; a range index contributes the "expected array length, got
range expression" error at the group's span while its `l.or(r)` bound is
kept as the size, and conversion succeeds regardless. -/
theorem intoTy_spec :
    (∀ (sp : Nat × Nat) (k : TyKind) (idxs : List ((Nat × Nat) × IndexKind)) (s : PState),
      IndexAccessedPath.intoTy ⟨.memberTy sp k :: idxs.map (fun p => .index p.1 p.2), 1⟩ s =
        (.ok (some (wrapArrays (.mk sp k) idxs)),
          { s with diags := s.diags ++ rangeDiags idxs })) ∧
    (∀ (id₀ : Ident) (ids : List Ident) (idxs : List ((Nat × Nat) × IndexKind)) (s : PState),
      IndexAccessedPath.intoTy
          ⟨(id₀ :: ids).map .member ++ idxs.map (fun p => .index p.1 p.2),
            (id₀ :: ids).length⟩ s =
        (.ok (some (wrapArrays (.mk (pathSpanOf (id₀ :: ids)) (.custom (id₀ :: ids))) idxs)),
          { s with diags := s.diags ++ rangeDiags idxs })) := by
  constructor
  · intro sp k idxs s
    rw [IndexAccessedPath.intoTy]
    simp only [List.drop_succ_cons, List.drop_zero]
    exact intoTyLoop_map idxs (.mk sp k) s
  · intro id₀ ids idxs s
    rw [IndexAccessedPath.intoTy]
    simp only [List.map_cons, List.cons_append]
    have htake : (IapKind.member id₀ ::
          (ids.map IapKind.member ++ idxs.map fun p => IapKind.index p.1 p.2)).take
        (id₀ :: ids).length = (id₀ :: ids).map IapKind.member := by
      show ((id₀ :: ids).map IapKind.member ++ idxs.map fun p => IapKind.index p.1 p.2).take
          (id₀ :: ids).length = (id₀ :: ids).map IapKind.member
      rw [List.take_left' (by rw [List.length_map])]
    have hdrop : (IapKind.member id₀ ::
          (ids.map IapKind.member ++ idxs.map fun p => IapKind.index p.1 p.2)).drop
        (id₀ :: ids).length = idxs.map fun p => IapKind.index p.1 p.2 := by
      show ((id₀ :: ids).map IapKind.member ++ idxs.map fun p => IapKind.index p.1 p.2).drop
          (id₀ :: ids).length = idxs.map fun p => IapKind.index p.1 p.2
      rw [List.drop_left' (by rw [List.length_map])]
    rw [htake, hdrop, membersPrefix_map]
    exact intoTyLoop_map idxs _ s

/-- Witness for C7: the path `T[2][1:3]` — base custom type `T`, one plain
index `2`, one range index keeping the lower bound `1` and emitting one
range error at the range group's span. -/
theorem intoTy_spec_witness :
    IndexAccessedPath.intoTy
        ⟨[.member ⟨"T", (0, 1)⟩,
          .index (1, 4) (.index (some (.mk (2, 3) (.lit .integer "2")))),
          .index (4, 9) (.range (some (.mk (5, 6) (.lit .integer "1")))
            (some (.mk (7, 8) (.lit .integer "3"))))], 1⟩
        ⟨[], ⟨.eof, (0, 0)⟩, false, []⟩ =
      (.ok (some (wrapArrays (.mk (pathSpanOf [⟨"T", (0, 1)⟩]) (.custom [⟨"T", (0, 1)⟩]))
          [((1, 4), .index (some (.mk (2, 3) (.lit .integer "2")))),
           ((4, 9), .range (some (.mk (5, 6) (.lit .integer "1")))
             (some (.mk (7, 8) (.lit .integer "3"))))])),
        { toks := ([] : List Token), prev := ⟨.eof, (0, 0)⟩, inYul := false,
          diags := [] ++ rangeDiags
            [((1, 4), .index (some (.mk (2, 3) (.lit .integer "2")))),
             ((4, 9), .range (some (.mk (5, 6) (.lit .integer "1")))
               (some (.mk (7, 8) (.lit .integer "3"))))] }) :=
  intoTy_spec.2 ⟨"T", (0, 1)⟩ []
    [((1, 4), .index (some (.mk (2, 3) (.lit .integer "2")))),
     ((4, 9), .range (some (.mk (5, 6) (.lit .integer "1")))
       (some (.mk (7, 8) (.lit .integer "3"))))]
    ⟨[], ⟨.eof, (0, 0)⟩, false, []⟩

end Solar
